import Mathlib

/-!
# kinokuniya-scraper: shallow embedding of `main.go`

The Go program fetches product pages of one bookstore, walks the parsed markup
with goquery and fills a `Book` record per address.  This file embeds the
functions of `main.go` as Lean definitions and proves properties of them.

Conventions of the embedding

* A Go `string` that holds text is the list of its runes (`GoString`); the input
  text is taken to be valid UTF-8.  Where the program slices a string by byte
  offset (`isbnRaw[5:]`) the UTF-8 bytes are made explicit (`GoBytes`).
* Go `int` is 64 bit: `strconv.Atoi` rejects values outside `[-2^63, 2^63)`;
  no arithmetic is done on prices afterwards, so `Price` is an `Int`.
* `log.Fatal` and a runtime panic end the whole process; functions that can
  reach one return `Except Abort _`.  `log.Fatal` exits at once; a panic first
  runs the deferred calls of its goroutine, so the record of the pipeline is
  still sent, and `Abort.panic` carries it.
* The pipelines of `scrape` run concurrently: a run is given by the order in
  which they complete and by the moment at which a panic, if any, takes the
  process down.
* Library functions (`strings`, `unicode`, `strconv`, `regexp`, `moji`,
  `goquery`) are embedded by their documented behaviour, under their Go names.
-/

namespace Kinokuniya

/-! ## Strings -/

/-- A Go string holding valid UTF-8 text, as the sequence of its runes. -/
abbrev GoString := List Char

/-- The raw bytes of a Go string. -/
abbrev GoBytes := List Nat

/-- The line feed rune, which `.` of a Go regular expression does not match. -/
def lineFeed : Char := Char.ofNat 10

/-- UTF-8 encoding of one rune. -/
def utf8Rune (c : Char) : GoBytes :=
  let r := c.toNat
  if r < 0x80 then [r]
  else if r < 0x800 then [0xC0 + r / 64, 0x80 + r % 64]
  else if r < 0x10000 then [0xE0 + r / 4096, 0x80 + r / 64 % 64, 0x80 + r % 64]
  else [0xF0 + r / 262144, 0x80 + r / 4096 % 64, 0x80 + r / 64 % 64, 0x80 + r % 64]

/-- UTF-8 encoding of a string: the bytes Go indexes and slices. -/
def utf8 (s : GoString) : GoBytes := s.flatMap utf8Rune

/-- Go `unicode.IsSpace`: the Latin-1 cases, then the White_Space table. -/
def unicode.IsSpace (c : Char) : Bool :=
  let r := c.toNat
  if r ≤ 0xFF then
    r == 0x09 || r == 0x0A || r == 0x0B || r == 0x0C || r == 0x0D || r == 0x20
      || r == 0x85 || r == 0xA0
  else
    r == 0x1680 || (0x2000 ≤ r && r ≤ 0x200A) || r == 0x2028 || r == 0x2029
      || r == 0x202F || r == 0x205F || r == 0x3000

/-- Go `strings.TrimSpace`: drop leading and trailing white space. -/
def strings.TrimSpace (s : GoString) : GoString :=
  (s.dropWhile unicode.IsSpace).rdropWhile unicode.IsSpace

/-- Go `strings.HasPrefix`. -/
def strings.HasPrefix (s pre : GoString) : Bool := pre.isPrefixOf s

/-- Go `strings.Contains`: `sub` occurs somewhere in `s`. -/
def strings.Contains : GoString → GoString → Bool
  | [], sub => sub.isPrefixOf []
  | c :: cs, sub => sub.isPrefixOf (c :: cs) || strings.Contains cs sub

/-- Go `strings.Split(s, sep)` for a separator of one rune: the pieces between
the separators; never the empty list. -/
def strings.Split : GoString → Char → List GoString
  | [], _ => [[]]
  | c :: cs, sep =>
    if c = sep then [] :: strings.Split cs sep
    else
      match strings.Split cs sep with
      | [] => [[c]]
      | piece :: pieces => (c :: piece) :: pieces

/-- Go `strings.ReplaceAll(s, old, "")` for `old` of one rune: delete it. -/
def strings.ReplaceAll (s : GoString) (old : Char) : GoString :=
  s.filter (fun c => c != old)

/-- Go `strings.Join`. -/
def strings.Join : List GoString → GoString → GoString
  | [], _ => []
  | [a], _ => a
  | a :: b :: rest, sep => a ++ sep ++ strings.Join (b :: rest) sep

/-! ## Errors and the record -/

/-- The `error` values the program creates or passes on. -/
inductive GoErr where
  /-- `fmt.Errorf("Error: wrong url '%v'", url)` -/
  | wrongUrl (url : GoString)
  /-- `fmt.Errorf("Error: cannot split by '/', '%v'", url)` -/
  | cannotSplit (url : GoString)
  /-- `fmt.Errorf("Error: wrong bookId '%v'", bookID)` -/
  | wrongBookId (bookID : GoString)
  /-- `fmt.Errorf("Error: cannot parse isbn")` -/
  | cannotParseIsbn
  /-- `fmt.Errorf("Error: pattern match error for book price")` -/
  | priceMismatch
  /-- `strconv.Atoi`: the text is not a decimal integer. -/
  | atoiSyntax (s : GoString)
  /-- `strconv.Atoi`: the value does not fit an `int`. -/
  | atoiRange (s : GoString)
  /-- An error from the operating system, the network or the HTML reader. -/
  | external (code : Nat)
  deriving DecidableEq, Repr

/-- The struct `Book`; `new(Book)` is the record of the default values. -/
structure Book where
  Title : GoString := []
  Author : GoString := []
  Price : Int := 0
  Publisher : GoString := []
  Isbn : GoBytes := []
  Err : Option GoErr := none
  deriving DecidableEq, Repr

/-- How a pipeline ends the process. -/
inductive Abort where
  /-- `log.Fatal(err)`: the error is logged and the process exits with status 1
  at once; deferred calls do not run. -/
  | fatal (err : GoErr)
  /-- A runtime panic (slice bounds out of range) in a pipeline: the deferred
  calls of the goroutine run, so the record `book`, as it stands at the panic,
  is still sent on the channel; then the process dies. -/
  | panic (book : Book)
  deriving DecidableEq, Repr

/-! ## strconv.Atoi -/

/-- Value of an ASCII decimal digit. -/
def digitVal (c : Char) : Option Nat :=
  if 48 ≤ c.toNat ∧ c.toNat ≤ 57 then some (c.toNat - 48) else none

/-- The digit loop of `strconv.Atoi`: `n = n*10 + digit`, failing on any other
byte. -/
def atoiDigits : GoString → Nat → Option Nat
  | [], n => some n
  | c :: cs, n =>
    match digitVal c with
    | some d => atoiDigits cs (n * 10 + d)
    | none => none

/-- Go `strconv.Atoi` on a 64-bit platform: an optional sign, at least one
decimal digit, nothing else, and a value that fits `int`. -/
def strconv.Atoi (s : GoString) : Except GoErr Int :=
  let neg : Bool := s.head? == some (Char.ofNat 45)
  let signed : Bool := neg || s.head? == some (Char.ofNat 43)
  let ds := if signed then s.drop 1 else s
  if ds = [] then .error (.atoiSyntax s)
  else
    match atoiDigits ds 0 with
    | none => .error (.atoiSyntax s)
    | some n =>
      if neg then
        if n ≤ 2 ^ 63 then .ok (-(n : Int)) else .error (.atoiRange s)
      else
        if n < 2 ^ 63 then .ok (n : Int) else .error (.atoiRange s)

/-! ## The price pattern -/

/-- The literal that opens the pattern of `rPrice`. -/
def rPriceOpen : GoString := "（本体¥".toList

/-- The literal that closes the pattern of `rPrice`. -/
def rPriceClose : Char := '）'

/-- The greedy `(.*)` followed by the closing literal, on one line: the longest
beginning of `line` that is followed by the closing literal. -/
def rPriceGreedy : GoString → Option GoString
  | [] => none
  | c :: cs =>
    match rPriceGreedy cs with
    | some m => some (c :: m)
    | none => if c = rPriceClose then some [] else none

/-- The pattern of `rPrice` matched at the very beginning of `s`: the capture
group, when there is a match.  `.` matches every rune but the line feed. -/
def rPriceAt (s : GoString) : Option GoString :=
  if rPriceOpen.isPrefixOf s then
    rPriceGreedy ((s.drop rPriceOpen.length).takeWhile (fun c => c != lineFeed))
  else none

/-- The method `rPrice.FindStringSubmatch` for
`rPrice = regexp.MustCompile("（本体¥(.*)）")`: the leftmost match, as the
list of the whole match and the capture group; the empty list (nil) when nothing
matches. -/
def rPrice.FindStringSubmatch : GoString → List GoString
  | [] => []
  | c :: cs =>
    match rPriceAt (c :: cs) with
    | some m => [rPriceOpen ++ m ++ [rPriceClose], m]
    | none => rPrice.FindStringSubmatch cs

/-- The body of `parsePrice` from the text of the selection on: pattern match,
removal of the thousands separators, `strconv.Atoi`; both failures are
`log.Fatal`. -/
def parsePriceText (text : GoString) : Except Abort Int :=
  match rPrice.FindStringSubmatch text with
  | [_, g] =>
    let priceStr := strings.ReplaceAll g (Char.ofNat 44)
    match strconv.Atoi priceStr with
    | .error err => .error (.fatal err)
    | .ok price => .ok price
  | _ => .error (.fatal .priceMismatch)

/-! ## moji and sanitize -/

/-- The rune map of `moji.Convert(_, moji.ZE, moji.HE)`: the fullwidth forms
U+FF01 to U+FF5D become the ASCII characters U+0021 to U+007D; the fullwidth
tilde U+FF5E is left as it is. -/
def moji.toHE (c : Char) : Char :=
  if 0xFF01 ≤ c.toNat ∧ c.toNat ≤ 0xFF5D then Char.ofNat (c.toNat - 0xFEE0) else c

/-- The rune map of `moji.Convert(_, moji.ZS, moji.HS)`: the ideographic space
U+3000 becomes the ASCII space. -/
def moji.toHS (c : Char) : Char :=
  if c.toNat = 0x3000 then Char.ofNat 32 else c

/-- The call `moji.Convert(s, moji.ZE, moji.HE)`. -/
def moji.ConvertZEtoHE (s : GoString) : GoString := s.map moji.toHE

/-- The call `moji.Convert(s, moji.ZS, moji.HS)`. -/
def moji.ConvertZStoHS (s : GoString) : GoString := s.map moji.toHS

/-- The function `sanitize` of `main.go`. -/
def sanitize (str : GoString) : GoString :=
  let s1 := strings.TrimSpace str
  let s2 := moji.ConvertZEtoHE s1
  let s3 := moji.ConvertZStoHS s2
  s3

/-! ## goquery: documents, selections, selectors -/

/-- A node of a parsed HTML document. -/
inductive Node where
  /-- A text node. -/
  | text (data : GoString)
  /-- A comment or doctype node: neither text nor element. -/
  | comment (data : GoString)
  /-- An element node: tag name, attributes in order, child nodes in order. -/
  | elem (tag : GoString) (attrs : List (GoString × GoString)) (children : List Node)

/-- A parsed document: the child nodes of the document node. -/
structure Document where
  children : List Node

/-- A node of a document, named by the child indices that lead to it from the
document node (the empty path). -/
abbrev Path := List Nat

/-- A goquery selection: an ordered list of nodes of the document. -/
abbrev Selection := List Path

/-- The child nodes of a node. -/
def Node.children : Node → List Node
  | .elem _ _ cs => cs
  | _ => []

/-- Whether the node is an element node. -/
def Node.isElem : Node → Bool
  | .elem _ _ _ => true
  | _ => false

/-- The attributes of a node. -/
def Node.attrs : Node → List (GoString × GoString)
  | .elem _ as _ => as
  | _ => []

/-- The node reached from `n` along a path. -/
def Node.descend : Node → Path → Option Node
  | n, [] => some n
  | n, i :: p =>
    match n.children.get? i with
    | some c => c.descend p
    | none => none

/-- The document node, as the container of the top-level nodes. -/
def Document.root (doc : Document) : Node := .elem [] [] doc.children

/-- The node of the document that a path names. -/
def Document.node (doc : Document) (p : Path) : Option Node := doc.root.descend p

/-- The selection of the document node alone, on which `doc.Find` works. -/
def Document.Selection : Selection := [[]]

mutual
/-- All text below a node, in document order (the inner function of `Text`). -/
def Node.innerText : Node → GoString
  | .text d => d
  | .comment _ => []
  | .elem _ _ cs => Node.innerTextList cs
/-- All text below the nodes of a list. -/
def Node.innerTextList : List Node → GoString
  | [] => []
  | n :: ns => Node.innerText n ++ Node.innerTextList ns
end

/-- The selectors the program uses: an optional tag name, an optional class and
an optional `[key="value"]` test, all of which must hold. -/
structure Selector where
  tag : Option GoString := none
  cls : Option GoString := none
  attr : Option (GoString × GoString) := none

/-- The separators of class names: space, tab, carriage return, line feed and
form feed. -/
def isClassSep (c : Char) : Bool :=
  c.toNat == 32 || c.toNat == 9 || c.toNat == 13 || c.toNat == 10 || c.toNat == 12

/-- Whether an element node satisfies a selector (cascadia): the tag name is
the one given, some `class` attribute lists the class, some attribute with the
key has the value. -/
def Selector.matchesNode (m : Selector) : Node → Bool
  | .elem tag attrs _ =>
    (match m.tag with
      | some t => tag == t
      | none => true)
    && (match m.cls with
      | some c => attrs.any fun a =>
          a.1 == "class".toList && (a.2.splitOnP isClassSep).contains c
      | none => true)
    && (match m.attr with
      | some (k, v) => attrs.any fun a => a.1 == k && a.2 == v
      | none => true)
  | _ => false

mutual
/-- The method `MatchAll` of a matcher: the node itself and its descendants that
satisfy the selector, in document order; `p` is the path of the node. -/
def Node.matchAll (m : Selector) : Node → Path → List Path
  | .elem tag attrs cs, p =>
    (if m.matchesNode (.elem tag attrs cs) then [p] else []) ++ Node.matchAllFrom m cs p 0
  | .text _, _ => []
  | .comment _, _ => []
/-- The matches below the children `cs` of the node at `p`, the first of which
has index `i`. -/
def Node.matchAllFrom (m : Selector) : List Node → Path → Nat → List Path
  | [], _, _ => []
  | c :: cs, p, i => Node.matchAll m c (p ++ [i]) ++ Node.matchAllFrom m cs p (i + 1)
end

/-- The helper `appendWithoutDuplicates` of goquery. -/
def appendWithoutDuplicates (result vals : List Path) : List Path :=
  vals.foldl (fun acc v => if v ∈ acc then acc else acc ++ [v]) result

/-- The helper `mapNodes` of goquery: the results of `f` over the nodes of a
selection, each node kept once, at its first occurrence. -/
def mapNodes (s : Selection) (f : Path → List Path) : Selection :=
  s.foldl (fun acc p => appendWithoutDuplicates acc (f p)) []

/-- The indices, from `i` on, of the element nodes of a list of children. -/
def elemIndices : List Node → Nat → List Nat
  | [], _ => []
  | c :: cs, i => if c.isElem then i :: elemIndices cs (i + 1) else elemIndices cs (i + 1)

/-- The method `Find`: the descendants of the nodes of the selection that
satisfy the selector. -/
def Selection.Find (doc : Document) (s : Selection) (m : Selector) : Selection :=
  mapNodes s fun p =>
    match doc.node p with
    | some n => Node.matchAllFrom m n.children p 0
    | none => []

/-- The method `First`: the first node of the selection, if any. -/
def Selection.First (s : Selection) : Selection := s.take 1

/-- The method `Size`. -/
def Selection.Size (s : Selection) : Nat := s.length

/-- The method `Children`: the element children of the nodes of the selection. -/
def Selection.Children (doc : Document) (s : Selection) : Selection :=
  mapNodes s fun p =>
    match doc.node p with
    | some n => (elemIndices n.children 0).map fun i => p ++ [i]
    | none => []

/-- The method `Next`: for each node of the selection the next sibling that is
an element. -/
def Selection.Next (doc : Document) (s : Selection) : Selection :=
  mapNodes s fun p =>
    match p.getLast? with
    | none => []
    | some i =>
      match doc.node p.dropLast with
      | some parent =>
        match (elemIndices parent.children 0).find? (fun j => i < j) with
        | some j => [p.dropLast ++ [j]]
        | none => []
      | none => []

/-- The method `Text`: the text of every node of the selection and of its
descendants, concatenated. -/
def Selection.Text (doc : Document) : Selection → GoString
  | [] => []
  | p :: ps =>
    (match doc.node p with
      | some n => n.innerText
      | none => []) ++ Selection.Text doc ps

/-- The method `Attr`: the value of the attribute on the first node of the
selection; `none` is the result `("", false)`. -/
def Selection.Attr (doc : Document) (s : Selection) (name : GoString) : Option GoString :=
  match s with
  | [] => none
  | p :: _ =>
    match doc.node p with
    | some n => (n.attrs.find? fun a => a.1 == name).map fun a => a.2
    | none => none

/-- The method `Each` with a callback that updates a state and may end the
process: the callback sees the index and the one-node selection. -/
def Selection.Each {σ : Type} (f : Nat → Selection → σ → Except Abort σ) :
    Selection → Nat → σ → Except Abort σ
  | [], _, st => .ok st
  | p :: ps, idx, st =>
    match f idx [p] st with
    | .error a => .error a
    | .ok st1 => Selection.Each f ps (idx + 1) st1

/-- Selector `h3`. -/
def selH3 : Selector := { tag := some "h3".toList }
/-- Selector `.infobox`. -/
def selInfobox : Selector := { cls := some "infobox".toList }
/-- Selector `li`. -/
def selLi : Selector := { tag := some "li".toList }
/-- Selector `a`. -/
def selA : Selector := { tag := some "a".toList }
/-- Selector `ul.pankuzu`. -/
def selPankuzu : Selector := { tag := some "ul".toList, cls := some "pankuzu".toList }
/-- Selector `.pricebox`. -/
def selPricebox : Selector := { cls := some "pricebox".toList }
/-- Selector `li[itemprop="identifier"]`. -/
def selIdentifier : Selector :=
  { tag := some "li".toList, attr := some ("itemprop".toList, "identifier".toList) }

/-! ## The field extractor -/

/-- The function `parsePrice`. -/
def parsePrice (doc : Document) (s : Selection) : Except Abort Int :=
  parsePriceText (Selection.Text doc s)

/-- The function `parsePublisher`. -/
def parsePublisher (doc : Document) (s : Selection) : GoString :=
  strings.TrimSpace (Selection.Text doc (Selection.Children doc s))

/-- The function `writtenInJapanese`. -/
def writtenInJapanese (doc : Document) : Bool :=
  if strings.Contains (Selection.Text doc (Selection.Find doc Document.Selection selPankuzu))
      "和書".toList then true
  else false

/-- The function `parseJapaneseBook`. -/
def parseJapaneseBook (doc : Document) (s : Selection) (book : Book) : Except Abort Book :=
  let sNext2 := Selection.Next doc (Selection.Next doc s)
  match parsePrice doc (Selection.First sNext2) with
  | .error a => .error a
  | .ok price =>
    let book := { book with Price := price }
    .ok { book with
      Publisher := parsePublisher doc (Selection.First (Selection.Next doc sNext2)) }

/-- The callback that `parseNonJapaneseBook` runs on each price box. -/
def priceboxStep (doc : Document) (idx : Nat) (s : Selection) (book : Book) :
    Except Abort Book :=
  let li := Selection.Find doc s selLi
  match parsePrice doc (Selection.First li) with
  | .error a => .error a
  | .ok price =>
    let book := if idx = 0 ∨ price < book.Price then { book with Price := price } else book
    let book :=
      if idx = 0 then
        { book with Publisher := parsePublisher doc (Selection.First (Selection.Next doc li)) }
      else book
    .ok book

/-- The function `parseNonJapaneseBook`. -/
def parseNonJapaneseBook (doc : Document) (book : Book) : Except Abort Book :=
  Selection.Each (priceboxStep doc) (Selection.Find doc Document.Selection selPricebox) 0 book

/-! ## The outside world: files, network, HTML reader -/

/-- The bytes of a page, as read from the cache or the network. -/
abbrev RawHtml := GoBytes

/-- What the program reads from outside itself, as seen by one pipeline. -/
structure World where
  /-- Whether `os.Stat` succeeds on a path. -/
  stat : GoString → Bool
  /-- The result of `ioutil.ReadFile`. -/
  readFile : GoString → Except GoErr RawHtml
  /-- The result of `http.Get`, then of `ioutil.ReadAll` on the body. -/
  httpGet : GoString → Except GoErr (Except GoErr RawHtml)
  /-- The function `filepath.Join` on two elements. -/
  join : GoString → GoString → GoString
  /-- The function `goquery.NewDocumentFromReader`. -/
  newDocument : RawHtml → Except GoErr Document

/-- The calls and effects a pipeline performs, in order. -/
inductive Event where
  /-- A call of `loadHTML` with its three arguments. -/
  | loadHTML (bookID url cacheFilePath : GoString)
  /-- A call of `os.Stat`. -/
  | stat (path : GoString)
  /-- A call of `ioutil.ReadFile`. -/
  | readFile (path : GoString)
  /-- A call of `http.Get`. -/
  | httpGet (url : GoString)
  /-- A call of `ioutil.WriteFile`, whose error is dropped. -/
  | writeFile (path : GoString) (content : RawHtml)
  deriving DecidableEq, Repr

/-- The function `Exists`, with the event it causes. -/
def Exists (w : World) (filename : GoString) : Bool × List Event :=
  (w.stat filename, [.stat filename])

/-- The function `loadHTMLFromFile`.  It returns a reader next to the error;
its caller drops the reader when the error is set, so the error alone is kept. -/
def loadHTMLFromFile (w : World) (cache : GoString) : Except GoErr RawHtml × List Event :=
  (w.readFile cache, [.readFile cache])

/-- The function `loadHTMLFromWeb`. -/
def loadHTMLFromWeb (w : World) (url cache : GoString) : Except GoErr RawHtml × List Event :=
  match w.httpGet url with
  | .error err => (.error err, [.httpGet url])
  | .ok resp =>
    match resp with
    | .error err => (.error err, [.httpGet url])
    | .ok body => (.ok body, [.httpGet url, .writeFile cache body])

/-- The function `loadHTML`; its trace opens with the call itself. -/
def loadHTML (w : World) (bookID url cacheFilePath : GoString) :
    Except GoErr RawHtml × List Event :=
  let cache := w.join cacheFilePath (bookID ++ ".html".toList)
  let ex := Exists w cache
  if ex.1 then
    let r := loadHTMLFromFile w cache
    (r.1, Event.loadHTML bookID url cacheFilePath :: ex.2 ++ r.2)
  else
    let r := loadHTMLFromWeb w url cache
    (r.1, Event.loadHTML bookID url cacheFilePath :: ex.2 ++ r.2)

/-- The slice expression `s[n:]` on the bytes of a string; `none` is the runtime
panic when the string is shorter than `n` bytes. -/
def sliceFrom (s : GoString) (n : Nat) : Option GoBytes :=
  if n ≤ (utf8 s).length then some ((utf8 s).drop n) else none

/-- The branch of `parseHTML` on `writtenInJapanese`. -/
def parseByLocale (doc : Document) (li : Selection) (book : Book) : Except Abort Book :=
  if writtenInJapanese doc then parseJapaneseBook doc li book
  else parseNonJapaneseBook doc book

/-- The function `parseHTML`: the record as it stands when the function
returns, and the returned error (`none` is nil); on a panic the record as it
stands then. -/
def parseHTML (w : World) (html : RawHtml) (book : Book) : Except Abort (Book × Option GoErr) :=
  match w.newDocument html with
  | .error err => .ok (book, some err)
  | .ok doc =>
    let titleRaw := Selection.Text doc (Selection.First (Selection.Find doc Document.Selection selH3))
    let book := { book with Title := sanitize titleRaw }
    let infobox := Selection.First (Selection.Find doc Document.Selection selInfobox)
    let li := Selection.Find doc infobox selLi
    let liA := Selection.Find doc (Selection.First li) selA
    let authors := liA.map fun p => sanitize (Selection.Text doc [p])
    let book := { book with Author := strings.Join authors "、".toList }
    match parseByLocale doc li book with
    | .error a => .error a
    | .ok book =>
      match Selection.Attr doc (Selection.Find doc Document.Selection selIdentifier)
          "content".toList with
      | none => .ok (book, some .cannotParseIsbn)
      | some isbnRaw =>
        match sliceFrom isbnRaw 5 with
        | none => .error (.panic book)
        | some isbn => .ok ({ book with Isbn := isbn }, none)

/-- The origin every address must start with. -/
def origin : GoString := "https://www.kinokuniya.co.jp".toList

/-- The function `scrapeEach`, with the trace of its calls.  `.ok book` is a
normal return: the deferred call sends `book` on the channel.  After
`log.Fatal` nothing is sent.  After a panic in `parseHTML` the deferred call
still sends the record, which `Abort.panic` carries. -/
def scrapeEach (w : World) (url cacheFilePath : GoString) : Except Abort Book × List Event :=
  let book : Book := {}
  if strings.HasPrefix url origin == false then
    (.ok { book with Err := some (.wrongUrl url) }, [])
  else
    let urlSplitted := strings.Split url (Char.ofNat 47)
    if urlSplitted.length < 1 then
      (.ok { book with Err := some (.cannotSplit url) }, [])
    else
      let bookID := urlSplitted.getD (urlSplitted.length - 1) []
      if strings.HasPrefix bookID "dsg".toList == false then
        (.ok { book with Err := some (.wrongBookId bookID) }, [])
      else
        let r := loadHTML w bookID url cacheFilePath
        match r.1 with
        | .error err => (.ok { book with Err := some err }, r.2)
        | .ok html =>
          match parseHTML w html book with
          | .error a => (.error a, r.2)
          | .ok (book, some err) => (.ok { book with Err := some err }, r.2)
          | .ok (book, none) => (.ok book, r.2)

/-! ## The batch orchestrator -/

/-- How a call of `scrape` ends. -/
inductive ScrapeResult where
  /-- The function returns `books, err`; `none` is nil. -/
  | returned (books : Option (List Book)) (err : Option GoErr)
  /-- A pipeline ended the process. -/
  | aborted (a : Abort)
  /-- The receive blocks forever: fewer records arrive than addresses given. -/
  | blocked
  deriving DecidableEq, Repr

/-- The receive loop of `scrape`: `pending` is the rest of `range urls`, `ch` the
records in the order they arrive on the channel, `books` the records stored so
far. -/
def drain : List GoString → List (Except Abort Book) → List Book → ScrapeResult
  | [], _, books => .returned (some books) none
  | _ :: _, [], _ => .blocked
  | _ :: _, .error a :: _, _ => .aborted a
  | _ :: pending, .ok book :: ch, books =>
    match book.Err with
    | some err => .returned none (some err)
    | none => drain pending ch (books ++ [book])

/-- The record that the deferred call of a pipeline sends on the channel, if it
runs. -/
def delivered : Except Abort Book → Option Book
  | .ok book => some book
  | .error (.panic book) => some book
  | .error (.fatal _) => none

/-- What the receive loop gets from a completed pipeline: the record it sent, or
the end of the process when the pipeline called `log.Fatal`. -/
def observed : Except Abort Book → Except Abort Book
  | .ok book => .ok book
  | .error (.panic book) => .ok book
  | .error (.fatal err) => .error (.fatal err)

/-- What the receive loop of `scrape` gets when the pipelines complete in the
order `arrival` (indices into `urls`). -/
def channel (w : World) (urls : List GoString) (cacheFilePath : GoString)
    (arrival : List Nat) : List (Except Abort Book) :=
  arrival.filterMap fun i =>
    (urls.get? i).map fun url => observed (scrapeEach w url cacheFilePath).1

/-- The moment at which the panic of a pipeline takes the process down: the
pipeline `pipeline` has sent its record, and the process dies when the receive
loop has received `received` records. -/
structure Crash where
  pipeline : Nat
  received : Nat
  deriving DecidableEq, Repr

/-- The channel as the receive loop sees it when a crash takes effect at the
moment `crash`; a crash can come only from a pipeline that panics, and `none`
is a run in which `scrape` returns before any crash. -/
def withCrash (w : World) (urls : List GoString) (cacheFilePath : GoString)
    (ch : List (Except Abort Book)) : Option Crash → List (Except Abort Book)
  | none => ch
  | some crash =>
    match (urls.get? crash.pipeline).map fun url => (scrapeEach w url cacheFilePath).1 with
    | some (.error (.panic book)) => ch.take crash.received ++ [.error (.panic book)]
    | _ => ch

/-- The function `scrape`, for one run of its pipelines: the order `arrival` in
which they complete and the moment `crash` at which a panic, if any, ends the
process.  One pipeline per address is started; the creation of the cache
directory has no part in the result. -/
def scrape (w : World) (urls : List GoString) (cacheFilePath : GoString)
    (arrival : List Nat) (crash : Option Crash) : ScrapeResult :=
  drain urls (withCrash w urls cacheFilePath (channel w urls cacheFilePath arrival) crash) []

/-! ## Reference definitions and sample inputs -/

/-- Whether a rune is an ASCII decimal digit. -/
def isDigit (c : Char) : Prop := 48 ≤ c.toNat ∧ c.toNat ≤ 57

instance (c : Char) : Decidable (isDigit c) :=
  inferInstanceAs (Decidable (48 ≤ c.toNat ∧ c.toNat ≤ 57))

/-- The thousands separator `,`. -/
def comma : Char := Char.ofNat 44

/-- The minus sign `-`. -/
def minusSign : Char := Char.ofNat 45

/-- The integer that a text of decimal digits and thousands separators denotes:
the separators are left out and the digits read in base ten (the words of the
specification, not the code of `parsePrice`). -/
def denotedInteger (d : GoString) : Nat :=
  Nat.ofDigits 10 (((d.filter fun c => c != comma).map fun c => c.toNat - 48).reverse)

/-- An element without attributes that holds one text node. -/
def textElem (tag text : String) : Node := .elem tag.toList [] [.text text.toList]

/-- The identifier metadata element `<li itemprop="identifier" content=c>`. -/
def identifierElem (c : String) : Node :=
  .elem "li".toList [("itemprop".toList, "identifier".toList), ("content".toList, c.toList)] []

/-- A price box `<div class="pricebox"><ul><li>price</li><li><a>publisher</a></li></ul></div>`. -/
def priceboxElem (price publisher : String) : Node :=
  .elem "div".toList [("class".toList, "pricebox".toList)]
    [.elem "ul".toList [] [textElem "li" price, .elem "li".toList [] [textElem "a" publisher]]]

/-- A page `<html><head></head><body>..nodes..</body></html>`, the shape the HTML
reader gives every document. -/
def pageOf (nodes : List Node) : Document :=
  ⟨[.elem "html".toList [] [.elem "head".toList [] [], .elem "body".toList [] nodes]]⟩

/-- A world in which every page read parses to the given document and the cache
holds every file. -/
def worldOf (doc : Document) : World where
  stat := fun _ => true
  readFile := fun _ => .ok []
  httpGet := fun _ => .error (.external 0)
  join := fun a b => a ++ Char.ofNat 47 :: b
  newDocument := fun _ => .ok doc

/-- An imported page whose only price box shows a price with a minus sign. -/
def negativePricePage : Document :=
  pageOf [priceboxElem "（本体¥-1）" "P", identifierElem "ISBN:1"]

/-- A page with one list item whose text is a price followed by a second
parenthesis. -/
def taxNotePage : Document := pageOf [textElem "li" "（本体¥3,900）（税込）"]

/-- A page with one list item whose text is a price as the shop prints it. -/
def plainPricePage : Document := pageOf [textElem "li" "価格 ¥4,290（本体¥3,900）"]

/-- The separator `/` of an address. -/
def slash : Char := Char.ofNat 47

/-- The final `/`-separated segment of an address, in the words of the
specification: the runes after the last `/`. -/
def finalSegment (url : GoString) : GoString := url.rtakeWhile fun c => c != slash

/-- The record a pipeline delivers for an address (the empty record when the
pipeline sends none). -/
def recordOf (w : World) (url cacheFilePath : GoString) : Book :=
  (delivered (scrapeEach w url cacheFilePath).1).getD {}

/-- The candidate price of a price box: the price parsed from its first list
item. -/
def candidatePrice (doc : Document) (box : Path) : Except Abort Int :=
  parsePrice doc (Selection.First (Selection.Find doc [box] selLi))

/-- The publisher of a price box, as `parseNonJapaneseBook` extracts it. -/
def boxPublisher (doc : Document) (box : Path) : GoString :=
  parsePublisher doc (Selection.First (Selection.Next doc (Selection.Find doc [box] selLi)))

/-- An imported page with three price boxes; the second one is the cheapest. -/
def threeBoxPage : Document :=
  pageOf [priceboxElem "（本体¥3,900）" "First", priceboxElem "（本体¥1,200）" "Second",
    priceboxElem "（本体¥2,500）" "Third", identifierElem "ISBN:9783662575604"]

/-- A world in which the cache holds every file and each cached page carries its
own path as identifier metadata: two addresses yield two different records. -/
def echoWorld : World where
  stat := fun _ => true
  readFile := fun path => .ok (path.map Char.toNat)
  httpGet := fun _ => .error (.external 0)
  join := fun a b => a ++ slash :: b
  newDocument := fun html =>
    .ok (pageOf [.elem "li".toList
      [("itemprop".toList, "identifier".toList), ("content".toList, html.map Char.ofNat)] []])

/-- A well-formed address. -/
def urlA : GoString := "https://www.kinokuniya.co.jp/f/dsg-1".toList

/-- A second well-formed address. -/
def urlB : GoString := "https://www.kinokuniya.co.jp/f/dsg-2".toList

/-- An address of another origin. -/
def urlForeign : GoString := "http://example.org/f/dsg-1".toList

/-- An address of the right origin whose final segment lacks the marker. -/
def urlNoMarker : GoString := "https://www.kinokuniya.co.jp/f/abc".toList

/-- The cache directory of the samples. -/
def cacheDir : GoString := "c".toList

/-- The record that `echoWorld` yields for `urlA`. -/
def recordA : Book := { Isbn := utf8 "-1.html".toList }

/-- The record that `echoWorld` yields for `urlB`. -/
def recordB : Book := { Isbn := utf8 "-2.html".toList }

/-- The title that `parseHTML` stores. -/
def titleOf (doc : Document) : GoString :=
  sanitize (Selection.Text doc
    (Selection.First (Selection.Find doc Document.Selection selH3)))

/-- The list items of the first info box: the selection `li` of `parseHTML`. -/
def infoboxItems (doc : Document) : Selection :=
  Selection.Find doc
    (Selection.First (Selection.Find doc Document.Selection selInfobox)) selLi

/-- The author line that `parseHTML` stores. -/
def authorOf (doc : Document) : GoString :=
  strings.Join
    ((Selection.Find doc (Selection.First (infoboxItems doc)) selA).map fun p =>
      sanitize (Selection.Text doc [p]))
    "、".toList

/-- The `content` attribute of the identifier metadata, as `parseHTML` reads it. -/
def identifierContent (doc : Document) : Option GoString :=
  Selection.Attr doc (Selection.Find doc Document.Selection selIdentifier) "content".toList

/-- The breadcrumb `<ul class="pankuzu"><li>和書</li></ul>` of a domestic page. -/
def domesticCrumb : Node :=
  .elem "ul".toList [("class".toList, "pankuzu".toList)] [textElem "li" "和書"]

/-- An imported page without info box and without price box, with identifier
metadata. -/
def noInfoboxPage : Document := pageOf [identifierElem "ISBN:9784065170069"]

/-- A domestic page without info box and without identifier metadata. -/
def domesticBarePage : Document := pageOf [domesticCrumb]

/-- A domestic page without info box, with identifier metadata. -/
def domesticIdentifierPage : Document :=
  pageOf [domesticCrumb, identifierElem "ISBN:9784065170069"]

/-- An imported page without identifier metadata. -/
def noIdentifierPage : Document := pageOf [priceboxElem "（本体¥3,900）" "P"]

/-- An imported page whose identifier content is shorter than five bytes. -/
def shortIdentifierPage : Document := pageOf [identifierElem "978"]

/-- An imported page whose identifier content has a fullwidth scheme. -/
def fullwidthIdentifierPage : Document := pageOf [identifierElem "ＩＳＢＮ：978"]

/-- A page with one list item whose child element holds a publisher name in
fullwidth letters. -/
def fullwidthPublisherPage : Document :=
  pageOf [.elem "li".toList [] [textElem "a" " ＡＢＣ　出版 "]]

/-- The price text of a selection carries no sign: what the price pattern
captures does not, after removal of the thousands separators, begin with a minus
sign. -/
def unsignedPriceText (doc : Document) (s : Selection) : Prop :=
  ∀ whole g, rPrice.FindStringSubmatch (Selection.Text doc s) = [whole, g] →
    (strings.ReplaceAll g comma).head? ≠ some minusSign

/-- The element from which `parseJapaneseBook` reads the price when it is given
the selection `s`. -/
def domesticPriceItem (doc : Document) (s : Selection) : Selection :=
  Selection.First (Selection.Next doc (Selection.Next doc s))

/-- The concatenated text of the immediate child elements of a node, in the
words of the specification: the text nodes of the node itself are left out. -/
def childElementsText (n : Node) : GoString :=
  (n.children.filter Node.isElem).flatMap Node.innerText

/-- A domestic page: breadcrumb, title, an info box with the author, a second
item, the price and the publisher, and the identifier metadata. -/
def domesticPage : Document :=
  pageOf [domesticCrumb, textElem "h3" "詳解　確率ロボティクス",
    .elem "div".toList [("class".toList, "infobox".toList)]
      [.elem "ul".toList []
        [.elem "li".toList [] [textElem "a" "上田 隆一【著】"],
          textElem "li" "Ａ５判",
          textElem "li" "価格 ¥4,290（本体¥3,900）",
          .elem "li".toList [] [textElem "a" " 講談社 ", .text "（2019/10発売）".toList]]],
    identifierElem "ISBN:9784065170069"]

/-- The record extracted from `domesticPage`. -/
def domesticRecord : Book :=
  { Title := "詳解 確率ロボティクス".toList, Author := "上田 隆一【著】".toList, Price := 3900,
    Publisher := "講談社".toList, Isbn := utf8 "9784065170069".toList }

/-! ## Theorems -/

theorem toNat_ofNat_lt (n : Nat) (h : n < 0xD800) : (Char.ofNat n).toNat = n := by
  have hv : n.isValidChar := Or.inl h
  simp only [Char.ofNat, hv, dite_true]
  simp [Char.toNat, Char.ofNatAux, UInt32.toNat]

theorem toHE_toNat (c : Char) :
    (moji.toHE c).toNat = if 0xFF01 ≤ c.toNat ∧ c.toNat ≤ 0xFF5D then c.toNat - 0xFEE0 else c.toNat := by
  unfold moji.toHE
  split
  · rename_i h
    exact toNat_ofNat_lt _ (by omega)
  · rfl

theorem toHS_toNat (c : Char) :
    (moji.toHS c).toNat = if c.toNat = 0x3000 then 32 else c.toNat := by
  unfold moji.toHS
  split
  · exact toNat_ofNat_lt _ (by omega)
  · rfl

theorem char_eq_of_toNat {a b : Char} (h : a.toNat = b.toNat) : a = b := by
  rw [← Char.ofNat_toNat a, ← Char.ofNat_toNat b, h]

theorem isSpace_iff (c : Char) : unicode.IsSpace c = true ↔
    (c.toNat = 9 ∨ c.toNat = 10 ∨ c.toNat = 11 ∨ c.toNat = 12 ∨ c.toNat = 13 ∨ c.toNat = 32
      ∨ c.toNat = 0x85 ∨ c.toNat = 0xA0 ∨ c.toNat = 0x1680 ∨ (0x2000 ≤ c.toNat ∧ c.toNat ≤ 0x200A)
      ∨ c.toNat = 0x2028 ∨ c.toNat = 0x2029 ∨ c.toNat = 0x202F ∨ c.toNat = 0x205F
      ∨ c.toNat = 0x3000) := by
  unfold unicode.IsSpace
  generalize c.toNat = n
  by_cases h : n ≤ 0xFF
  · simp only [h, if_true, Bool.or_eq_true, beq_iff_eq]
    omega
  · simp only [h, if_false, Bool.or_eq_true, beq_iff_eq, Bool.and_eq_true, decide_eq_true_eq]
    omega

theorem isSpace_toHE (c : Char) : unicode.IsSpace (moji.toHE c) = unicode.IsSpace c := by
  rw [Bool.eq_iff_iff, isSpace_iff, isSpace_iff, toHE_toNat]
  split_ifs <;> omega

theorem isSpace_toHS (c : Char) : unicode.IsSpace (moji.toHS c) = unicode.IsSpace c := by
  rw [Bool.eq_iff_iff, isSpace_iff, isSpace_iff, toHS_toNat]
  split_ifs <;> omega

theorem toHE_idem (c : Char) : moji.toHE (moji.toHE c) = moji.toHE c := by
  apply char_eq_of_toNat
  rw [toHE_toNat, toHE_toNat]
  split_ifs <;> omega

theorem toHS_idem (c : Char) : moji.toHS (moji.toHS c) = moji.toHS c := by
  apply char_eq_of_toNat
  rw [toHS_toNat, toHS_toNat]
  split_ifs <;> omega

theorem toHE_toHS (c : Char) : moji.toHE (moji.toHS (moji.toHE c)) = moji.toHS (moji.toHE c) := by
  apply char_eq_of_toNat
  rw [toHE_toNat, toHS_toNat, toHE_toNat]
  split_ifs <;> omega

theorem dropWhile_map_space (f : Char → Char) (hf : ∀ c, unicode.IsSpace (f c) = unicode.IsSpace c)
    (l : GoString) : (l.map f).dropWhile unicode.IsSpace = (l.dropWhile unicode.IsSpace).map f := by
  induction l with
  | nil => rfl
  | cons c cs ih =>
    simp only [List.map_cons, List.dropWhile_cons, hf]
    split
    · exact ih
    · rfl

theorem trimSpace_map (f : Char → Char) (hf : ∀ c, unicode.IsSpace (f c) = unicode.IsSpace c)
    (l : GoString) : strings.TrimSpace (l.map f) = (strings.TrimSpace l).map f := by
  unfold strings.TrimSpace List.rdropWhile
  rw [dropWhile_map_space f hf, ← List.map_reverse, dropWhile_map_space f hf, List.map_reverse]

theorem dropWhile_trimSpace (l : GoString) :
    (strings.TrimSpace l).dropWhile unicode.IsSpace = strings.TrimSpace l := by
  unfold strings.TrimSpace
  rw [List.dropWhile_eq_self_iff]
  intro hl
  have hp := List.rdropWhile_prefix unicode.IsSpace (l.dropWhile unicode.IsSpace)
  have hl2 : 0 < (l.dropWhile unicode.IsSpace).length := lt_of_lt_of_le hl hp.length_le
  have := List.dropWhile_get_zero_not unicode.IsSpace l hl2
  have e : (List.rdropWhile unicode.IsSpace (List.dropWhile unicode.IsSpace l)).get ⟨0, hl⟩
      = (List.dropWhile unicode.IsSpace l).get ⟨0, hl2⟩ := by
    simp only [List.get_eq_getElem]
    exact hp.getElem hl
  rw [e]
  exact this

theorem trimSpace_idem (l : GoString) :
    strings.TrimSpace (strings.TrimSpace l) = strings.TrimSpace l := by
  have h1 := dropWhile_trimSpace l
  unfold strings.TrimSpace at h1 ⊢
  rw [h1, List.rdropWhile_idempotent]

/-- C6: `sanitize` is idempotent: sanitizing a sanitized string returns the same
string. -/
theorem C6_sanitize_idempotent (s : GoString) : sanitize (sanitize s) = sanitize s := by
  unfold sanitize moji.ConvertZStoHS moji.ConvertZEtoHE
  simp only [List.map_map]
  rw [trimSpace_map _ (fun c => by simp [isSpace_toHS, isSpace_toHE]), trimSpace_idem]
  simp only [List.map_map]
  apply List.map_congr_left
  intro c _
  simp only [Function.comp]
  rw [toHE_toHS, toHS_idem]

/-! ### Prices -/

theorem atoiDigits_of_digits (ds : GoString) (n : Nat) (h : ∀ c ∈ ds, isDigit c) :
    atoiDigits ds n
      = some (n * 10 ^ ds.length + Nat.ofDigits 10 ((ds.map fun c => c.toNat - 48).reverse)) := by
  induction ds generalizing n with
  | nil => simp [atoiDigits]
  | cons c cs ih =>
    have hc : isDigit c := h c (List.mem_cons_self _ _)
    have hcs : ∀ x ∈ cs, isDigit x := fun x hx => h x (List.mem_cons_of_mem _ hx)
    have hd : digitVal c = some (c.toNat - 48) := by
      unfold digitVal
      exact if_pos hc
    simp only [atoiDigits, hd, ih _ hcs, List.map_cons, List.reverse_cons, Nat.ofDigits_append,
      List.length_reverse, List.length_map, Nat.ofDigits_singleton, List.length_cons]
    congr 1
    ring

theorem atoi_of_digits (ds : GoString) (hne : ds ≠ []) (h : ∀ c ∈ ds, isDigit c)
    (hr : Nat.ofDigits 10 ((ds.map fun c => c.toNat - 48).reverse) < 2 ^ 63) :
    strconv.Atoi ds
      = .ok ((Nat.ofDigits 10 ((ds.map fun c => c.toNat - 48).reverse) : Nat) : Int) := by
  obtain ⟨c, cs, rfl⟩ := List.exists_cons_of_ne_nil hne
  have hc : isDigit c := h c (List.mem_cons_self _ _)
  have h45 : (c == Char.ofNat 45) = false := by
    rw [beq_eq_false_iff_ne]
    intro e
    have : c.toNat = 45 := by rw [e]; exact toNat_ofNat_lt 45 (by norm_num)
    unfold isDigit at hc
    omega
  have h43 : (c == Char.ofNat 43) = false := by
    rw [beq_eq_false_iff_ne]
    intro e
    have : c.toNat = 43 := by rw [e]; exact toNat_ofNat_lt 43 (by norm_num)
    unfold isDigit at hc
    omega
  have hd := atoiDigits_of_digits (c :: cs) 0 h
  simp only [Nat.zero_mul, Nat.zero_add] at hd
  unfold strconv.Atoi
  simp only [List.head?_cons, Option.some_beq_some, h45, h43, Bool.or_false, Bool.false_eq_true,
    if_false, hd]
  rw [if_neg (List.cons_ne_nil _ _), if_pos hr]

theorem atoi_nonneg (s : GoString) (p : Int) (h : strconv.Atoi s = .ok p)
    (hs : s.head? ≠ some minusSign) : 0 ≤ p := by
  unfold strconv.Atoi at h
  have hneg : (s.head? == some (Char.ofNat 45)) = false := by
    rw [beq_eq_false_iff_ne]
    exact hs
  simp only [hneg, Bool.false_or, Bool.false_eq_true, if_false] at h
  split_ifs at h
  all_goals
    split at h
    · cases h
    · split_ifs at h
      cases h
      exact Int.natCast_nonneg _

theorem greedy_none (l : GoString) (h : rPriceClose ∉ l) : rPriceGreedy l = none := by
  induction l with
  | nil => rfl
  | cons c cs ih =>
    have h1 : rPriceClose ∉ cs := fun hx => h (List.mem_cons_of_mem _ hx)
    have h2 : c ≠ rPriceClose := fun e => h (e ▸ List.mem_cons_self _ _)
    simp [rPriceGreedy, ih h1, h2]

theorem greedy_last (d rest : GoString) (h : rPriceClose ∉ rest) :
    rPriceGreedy (d ++ rPriceClose :: rest) = some d := by
  induction d with
  | nil => simp [rPriceGreedy, greedy_none rest h]
  | cons c cs ih => simp [rPriceGreedy, ih]

theorem takeWhile_append_of_all (p : Char → Bool) (d l : GoString) (h : ∀ c ∈ d, p c = true) :
    (d ++ l).takeWhile p = d ++ l.takeWhile p := by
  induction d with
  | nil => rfl
  | cons c cs ih =>
    have hc := h c (List.mem_cons_self _ _)
    simp only [List.cons_append, List.takeWhile_cons, hc, if_true]
    rw [ih fun x hx => h x (List.mem_cons_of_mem _ hx)]

theorem rPriceAt_open (x : GoString) :
    rPriceAt (rPriceOpen ++ x) = rPriceGreedy (x.takeWhile fun c => c != lineFeed) := by
  unfold rPriceAt
  have h1 : rPriceOpen.isPrefixOf (rPriceOpen ++ x) = true := by
    rw [List.isPrefixOf_iff_prefix]
    exact List.prefix_append _ _
  rw [if_pos h1, List.drop_left]

theorem find_open (x m : GoString)
    (h : rPriceGreedy (x.takeWhile fun c => c != lineFeed) = some m) :
    rPrice.FindStringSubmatch (rPriceOpen ++ x) = [rPriceOpen ++ m ++ [rPriceClose], m] := by
  have h1 := rPriceAt_open x
  rw [h] at h1
  have e : rPriceOpen ++ x = '（' :: ("本体¥".toList ++ x) := rfl
  rw [e] at h1 ⊢
  simp only [rPrice.FindStringSubmatch, h1]

theorem find_skip (pre rest : GoString)
    (h : ∀ a b, b ≠ [] → pre = a ++ b → rPriceOpen.isPrefixOf (b ++ rest) = false) :
    rPrice.FindStringSubmatch (pre ++ rest) = rPrice.FindStringSubmatch rest := by
  induction pre with
  | nil => rfl
  | cons c cs ih =>
    have h0 : rPriceAt (c :: cs ++ rest) = none := by
      unfold rPriceAt
      rw [h [] (c :: cs) (by simp) rfl]
      rfl
    have h1 : rPrice.FindStringSubmatch (c :: cs ++ rest)
        = rPrice.FindStringSubmatch (cs ++ rest) := by
      simp only [List.cons_append] at h0 ⊢
      simp only [rPrice.FindStringSubmatch, h0]
    rw [h1]
    exact ih fun a b hb e => h (c :: a) b hb (by rw [e]; rfl)

theorem rPriceOpen_eq : rPriceOpen = ['（', '本', '体', '¥'] := rfl

theorem open_not_prefix_of_overlap (b rest : GoString) (hb : b ≠ [])
    (h : ¬ rPriceOpen <:+: b) : rPriceOpen.isPrefixOf (b ++ rPriceOpen ++ rest) = false := by
  rw [Bool.eq_false_iff]
  intro hp
  rw [List.isPrefixOf_iff_prefix] at hp
  obtain ⟨t, ht⟩ := hp
  rw [rPriceOpen_eq] at ht
  rcases b with _ | ⟨b0, _ | ⟨b1, _ | ⟨b2, _ | ⟨b3, bs⟩⟩⟩⟩
  · exact hb rfl
  · simp at ht
  · simp at ht
  · simp at ht
  · apply h
    refine ⟨[], bs, ?_⟩
    rw [rPriceOpen_eq]
    simp only [List.cons_append, List.nil_append, List.cons.injEq] at ht
    obtain ⟨e0, e1, e2, e3, _⟩ := ht
    rw [← e0, ← e1, ← e2, ← e3]
    rfl

/-- C9 (as stated, refuted): the text `（本体¥3,900）（税込）` contains the
marked price 3,900, yet `parsePrice` ends the process: the greedy group runs to
the last closing parenthesis of the line. -/
theorem C9_text_after_price_counterexample :
    Selection.Text taxNotePage [[0, 1, 0]]
        = [] ++ rPriceOpen ++ "3,900".toList ++ rPriceClose :: "（税込）".toList
      ∧ parsePrice taxNotePage [[0, 1, 0]]
        = .error (.fatal (.atoiSyntax "3900）（税込".toList)) := by
  constructor <;> rfl

/-- C9 (amended): when the text of the element is `pre ++ "（本体¥" ++ d ++ "）" ++ post`
with no `（本体¥` inside `pre`, no `）` in `post` before the end of the line, `d`
made of decimal digits and `,` with at least one digit, and a value below 2^63,
`parsePrice` returns the integer that `d` denotes without its separators. -/
theorem C9_price_of_marked_text (doc : Document) (s : Selection) (pre d post : GoString)
    (ht : Selection.Text doc s = pre ++ rPriceOpen ++ d ++ rPriceClose :: post)
    (hpre : ¬ rPriceOpen <:+: pre)
    (hd : ∀ c ∈ d, isDigit c ∨ c = comma)
    (hne : ∃ c ∈ d, isDigit c)
    (hpost : rPriceClose ∉ post.takeWhile fun c => c != lineFeed)
    (hr : denotedInteger d < 2 ^ 63) :
    parsePrice doc s = .ok (denotedInteger d : Int) := by
  have hlf : ∀ c ∈ d, (c != lineFeed) = true := by
    intro c hc
    rw [bne_iff_ne]
    intro e
    have h10 : c.toNat = 10 := by rw [e]; exact toNat_ofNat_lt 10 (by norm_num)
    rcases hd c hc with h1 | h1
    · unfold isDigit at h1
      omega
    · have h44 : c.toNat = 44 := by rw [h1]; exact toNat_ofNat_lt 44 (by norm_num)
      omega
  have hclose : (rPriceClose != lineFeed) = true := by decide
  have hgreedy : rPriceGreedy ((d ++ rPriceClose :: post).takeWhile fun c => c != lineFeed)
      = some d := by
    rw [takeWhile_append_of_all _ d _ hlf, List.takeWhile_cons, if_pos hclose]
    exact greedy_last d _ hpost
  have hfind : rPrice.FindStringSubmatch (Selection.Text doc s)
      = [rPriceOpen ++ d ++ [rPriceClose], d] := by
    rw [ht, List.append_assoc, List.append_assoc, find_skip]
    · exact find_open _ d hgreedy
    · intro a b hb e
      have hinf : ¬ rPriceOpen <:+: b := by
        intro hi
        apply hpre
        rw [e]
        exact List.IsInfix.trans hi (List.suffix_append a b).isInfix
      have := open_not_prefix_of_overlap b (d ++ rPriceClose :: post) hb hinf
      rw [List.append_assoc] at this
      exact this
  have hfilter : ∀ c ∈ d.filter (fun c => c != comma), isDigit c := by
    intro c hc
    rw [List.mem_filter] at hc
    rcases hd c hc.1 with h1 | h1
    · exact h1
    · have := hc.2
      rw [bne_iff_ne] at this
      exact absurd h1 this
  have hnonempty : d.filter (fun c => c != comma) ≠ [] := by
    obtain ⟨c, hc, hdig⟩ := hne
    intro e
    have hmem : c ∈ d.filter (fun c => c != comma) := by
      rw [List.mem_filter]
      refine ⟨hc, ?_⟩
      rw [bne_iff_ne]
      intro e2
      have h44 : c.toNat = 44 := by rw [e2]; exact toNat_ofNat_lt 44 (by norm_num)
      unfold isDigit at hdig
      omega
    rw [e] at hmem
    exact List.not_mem_nil _ hmem
  have hatoi := atoi_of_digits _ hnonempty hfilter hr
  unfold parsePrice parsePriceText
  rw [hfind]
  simp only
  have e : strings.ReplaceAll d (Char.ofNat 44) = d.filter (fun c => c != comma) := rfl
  rw [e, hatoi]
  rfl

theorem C9_price_of_marked_text_witness :
    parsePrice plainPricePage [[0, 1, 0]] = .ok (denotedInteger "3,900".toList : Int) :=
  C9_price_of_marked_text plainPricePage [[0, 1, 0]] "価格 ¥4,290".toList "3,900".toList []
    rfl (by decide) (by decide) (by decide) (by decide) (by decide)

/-! ### Addresses -/

theorem split_ne_nil (s : GoString) (sep : Char) : strings.Split s sep ≠ [] := by
  cases s with
  | nil => simp [strings.Split]
  | cons c cs =>
    unfold strings.Split
    split
    · simp
    · split <;> simp

theorem split_of_not_mem (s : GoString) (sep : Char) (h : sep ∉ s) :
    strings.Split s sep = [s] := by
  induction s with
  | nil => rfl
  | cons c cs ih =>
    have h1 : sep ∉ cs := fun hx => h (List.mem_cons_of_mem _ hx)
    have h2 : c ≠ sep := fun e => h (e ▸ List.mem_cons_self _ _)
    simp [strings.Split, h2, ih h1]

theorem split_length_of_mem (s : GoString) (sep : Char) (h : sep ∈ s) :
    2 ≤ (strings.Split s sep).length := by
  induction s with
  | nil => cases h
  | cons c cs ih =>
    unfold strings.Split
    by_cases hc : c = sep
    · rw [if_pos hc]
      have := List.length_pos.mpr (split_ne_nil cs sep)
      simp only [List.length_cons]
      omega
    · rw [if_neg hc]
      have hcs : sep ∈ cs := by
        rcases List.mem_cons.mp h with e | e
        · exact absurd e.symm hc
        · exact e
      have := ih hcs
      split
      · rename_i e
        rw [e] at this
        simp at this
      · rename_i piece pieces e
        rw [e] at this
        simpa using this

theorem takeWhile_append_of_exists (p : Char → Bool) (l m : GoString)
    (h : ∃ x ∈ l, p x = false) : (l ++ m).takeWhile p = l.takeWhile p := by
  induction l with
  | nil =>
    obtain ⟨x, hx, _⟩ := h
    cases hx
  | cons c cs ih =>
    simp only [List.cons_append, List.takeWhile_cons]
    by_cases hc : p c = true
    · rw [if_pos hc, if_pos hc]
      obtain ⟨x, hx, hpx⟩ := h
      rcases List.mem_cons.mp hx with e | e
      · rw [e, hc] at hpx
        cases hpx
      · rw [ih ⟨x, e, hpx⟩]
    · rw [if_neg hc, if_neg hc]

theorem rtakeWhile_cons_of_mem (c : Char) (cs : GoString) (sep : Char) (h : sep ∈ cs) :
    (c :: cs).rtakeWhile (fun x => x != sep) = cs.rtakeWhile fun x => x != sep := by
  unfold List.rtakeWhile
  rw [List.reverse_cons, takeWhile_append_of_exists]
  exact ⟨sep, List.mem_reverse.mpr h, by simp⟩

theorem rtakeWhile_of_not_mem (s : GoString) (sep : Char) (h : sep ∉ s) :
    s.rtakeWhile (fun x => x != sep) = s := by
  unfold List.rtakeWhile
  rw [List.takeWhile_eq_self_iff.mpr, List.reverse_reverse]
  intro x hx
  rw [bne_iff_ne]
  intro e
  exact h (e ▸ List.mem_reverse.mp hx)

theorem rtakeWhile_sep_cons (cs : GoString) (sep : Char) :
    (sep :: cs).rtakeWhile (fun x => x != sep) = cs.rtakeWhile fun x => x != sep := by
  by_cases h : sep ∈ cs
  · exact rtakeWhile_cons_of_mem sep cs sep h
  · rw [rtakeWhile_of_not_mem cs sep h]
    unfold List.rtakeWhile
    rw [List.reverse_cons, takeWhile_append_of_all _ _ _ (by
      intro x hx
      rw [bne_iff_ne]
      intro e
      exact h (e ▸ List.mem_reverse.mp hx))]
    simp

theorem split_getLast (s : GoString) (sep : Char) :
    (strings.Split s sep).getLast? = some (s.rtakeWhile fun x => x != sep) := by
  induction s with
  | nil => rfl
  | cons c cs ih =>
    unfold strings.Split
    by_cases hc : c = sep
    · rw [if_pos hc, hc, rtakeWhile_sep_cons, ← ih]
      obtain ⟨x, xs, e⟩ := List.exists_cons_of_ne_nil (split_ne_nil cs sep)
      rw [e]
      rfl
    · rw [if_neg hc]
      by_cases hm : sep ∈ cs
      · rw [rtakeWhile_cons_of_mem c cs sep hm, ← ih]
        have hl := split_length_of_mem cs sep hm
        split
        · rename_i e
          exact absurd e (split_ne_nil cs sep)
        · rename_i piece pieces e
          rw [e] at hl ⊢
          obtain ⟨y, ys, e2⟩ := List.exists_cons_of_ne_nil
            (show pieces ≠ [] by intro e3; rw [e3] at hl; simp at hl)
          rw [e2]
          rfl
      · rw [split_of_not_mem cs sep hm,
          rtakeWhile_of_not_mem (c :: cs) sep (by
            intro hx
            rcases List.mem_cons.mp hx with e | e
            · exact hc e.symm
            · exact hm e)]
        rfl

theorem split_last_eq_finalSegment (url : GoString) :
    (strings.Split url (Char.ofNat 47)).getD ((strings.Split url (Char.ofNat 47)).length - 1) []
      = finalSegment url := by
  have h := split_getLast url (Char.ofNat 47)
  rw [List.getLast?_eq_getElem?] at h
  unfold finalSegment slash
  rw [List.getD_eq_getElem?_getD, h]
  rfl

theorem loadHTML_trace_head (w : World) (bookID url cacheFilePath : GoString) :
    ∃ rest, (loadHTML w bookID url cacheFilePath).2
        = Event.loadHTML bookID url cacheFilePath :: rest
      ∧ ∀ a b c, Event.loadHTML a b c ∉ rest := by
  unfold loadHTML
  simp only [Exists, loadHTMLFromFile, loadHTMLFromWeb]
  split
  · exact ⟨_, rfl, by simp⟩
  · refine ⟨_, rfl, ?_⟩
    intro a b c
    split
    · simp
    · split <;> simp

theorem scrapeEach_wrongUrl (w : World) (url cacheFilePath : GoString)
    (h1 : strings.HasPrefix url origin = false) :
    scrapeEach w url cacheFilePath = (.ok { Err := some (.wrongUrl url) }, []) := by
  unfold scrapeEach
  rw [h1]
  rfl

theorem scrapeEach_wrongBookId (w : World) (url cacheFilePath : GoString)
    (h1 : strings.HasPrefix url origin = true)
    (h2 : strings.HasPrefix (finalSegment url) "dsg".toList = false) :
    scrapeEach w url cacheFilePath
      = (.ok { Err := some (.wrongBookId (finalSegment url)) }, []) := by
  have hlen : ¬ (strings.Split url (Char.ofNat 47)).length < 1 := by
    have := List.length_pos.mpr (split_ne_nil url (Char.ofNat 47))
    omega
  unfold scrapeEach
  simp only [h1, split_last_eq_finalSegment, h2]
  rw [if_neg (by decide), if_neg hlen, if_pos (by decide)]

theorem scrapeEach_pass (w : World) (url cacheFilePath : GoString)
    (h1 : strings.HasPrefix url origin = true)
    (h2 : strings.HasPrefix (finalSegment url) "dsg".toList = true) :
    scrapeEach w url cacheFilePath
      = match (loadHTML w (finalSegment url) url cacheFilePath).1 with
        | .error err =>
          (.ok { Err := some err }, (loadHTML w (finalSegment url) url cacheFilePath).2)
        | .ok html =>
          match parseHTML w html {} with
          | .error a => (.error a, (loadHTML w (finalSegment url) url cacheFilePath).2)
          | .ok (book, some err) =>
            (.ok { book with Err := some err },
              (loadHTML w (finalSegment url) url cacheFilePath).2)
          | .ok (book, none) =>
            (.ok book, (loadHTML w (finalSegment url) url cacheFilePath).2) := by
  have hlen : ¬ (strings.Split url (Char.ofNat 47)).length < 1 := by
    have := List.length_pos.mpr (split_ne_nil url (Char.ofNat 47))
    omega
  unfold scrapeEach
  simp only [h1, split_last_eq_finalSegment, h2]
  rw [if_neg (by decide), if_neg hlen, if_neg (by decide)]

/-- C3: an address that does not start with the origin, or whose final segment
does not start with `dsg`, makes `scrapeEach` deliver a record with `Err` set
and an empty trace (no call of `loadHTML`, no cache read, no fetch); when both
hold, `loadHTML` is called exactly once, with the final segment, the address and
the cache directory as arguments. -/
theorem C3_address_gate (w : World) (url cacheFilePath : GoString) :
    ((strings.HasPrefix url origin = false
        ∨ strings.HasPrefix (finalSegment url) "dsg".toList = false) →
      (∃ book err, (scrapeEach w url cacheFilePath).1 = .ok book ∧ book.Err = some err)
        ∧ (scrapeEach w url cacheFilePath).2 = [])
    ∧ ((strings.HasPrefix url origin = true
        ∧ strings.HasPrefix (finalSegment url) "dsg".toList = true) →
      (scrapeEach w url cacheFilePath).2 = (loadHTML w (finalSegment url) url cacheFilePath).2
        ∧ ∃ rest, (scrapeEach w url cacheFilePath).2
            = Event.loadHTML (finalSegment url) url cacheFilePath :: rest
          ∧ ∀ a b c, Event.loadHTML a b c ∉ rest) := by
  constructor
  · intro h
    by_cases h1 : strings.HasPrefix url origin = false
    · rw [scrapeEach_wrongUrl w url cacheFilePath h1]
      exact ⟨⟨_, _, rfl, rfl⟩, rfl⟩
    · have h2 : strings.HasPrefix (finalSegment url) "dsg".toList = false := by
        rcases h with h | h
        · exact absurd h h1
        · exact h
      rw [Bool.not_eq_false] at h1
      rw [scrapeEach_wrongBookId w url cacheFilePath h1 h2]
      exact ⟨⟨_, _, rfl, rfl⟩, rfl⟩
  · intro ⟨h1, h2⟩
    have key : (scrapeEach w url cacheFilePath).2
        = (loadHTML w (finalSegment url) url cacheFilePath).2 := by
      rw [scrapeEach_pass w url cacheFilePath h1 h2]
      split
      · rfl
      · split <;> rfl
    refine ⟨key, ?_⟩
    rw [key]
    exact loadHTML_trace_head w _ url cacheFilePath

/-- C3 at three sample addresses: a foreign origin, a final segment without the
marker, and a well-formed address. -/
theorem C3_address_gate_witness :
    (((∃ book err, (scrapeEach echoWorld urlForeign cacheDir).1 = .ok book ∧ book.Err = some err)
        ∧ (scrapeEach echoWorld urlForeign cacheDir).2 = [])
      ∧ ((∃ book err, (scrapeEach echoWorld urlNoMarker cacheDir).1 = .ok book
            ∧ book.Err = some err)
        ∧ (scrapeEach echoWorld urlNoMarker cacheDir).2 = []))
    ∧ ((scrapeEach echoWorld urlA cacheDir).2
          = (loadHTML echoWorld (finalSegment urlA) urlA cacheDir).2
        ∧ ∃ rest, (scrapeEach echoWorld urlA cacheDir).2
            = Event.loadHTML (finalSegment urlA) urlA cacheDir :: rest
          ∧ ∀ a b c, Event.loadHTML a b c ∉ rest) :=
  ⟨⟨(C3_address_gate echoWorld urlForeign cacheDir).1 (Or.inl (by decide)),
      (C3_address_gate echoWorld urlNoMarker cacheDir).1 (Or.inr (by decide))⟩,
    (C3_address_gate echoWorld urlA cacheDir).2 ⟨by decide, by decide⟩⟩

/-! ### The receive loop -/

theorem observed_ok (x : Except Abort Book) (b : Book) (h : observed x = .ok b) :
    delivered x = some b := by
  match x, h with
  | .ok book, h =>
    simp only [observed, Except.ok.injEq] at h
    rw [← h]
    rfl
  | .error (.panic book), h =>
    simp only [observed, Except.ok.injEq] at h
    rw [← h]
    rfl
  | .error (.fatal err), h => simp [observed] at h

theorem channel_eq_map (w : World) (urls : List GoString) (cacheFilePath : GoString)
    (arrival : List Nat) (hvalid : ∀ i ∈ arrival, i < urls.length) :
    channel w urls cacheFilePath arrival
      = arrival.map fun i => observed (scrapeEach w (urls.getD i []) cacheFilePath).1 := by
  unfold channel
  induction arrival with
  | nil => rfl
  | cons i rest ih =>
    have hi : i < urls.length := hvalid i (List.mem_cons_self _ _)
    have hget : urls.get? i = some (urls.getD i []) := by
      rw [List.get?_eq_getElem?, List.getD_eq_getElem?_getD, List.getElem?_eq_getElem hi]
      rfl
    rw [List.filterMap_cons, hget]
    simp only [Option.map_some', List.map_cons]
    rw [ih fun j hj => hvalid j (List.mem_cons_of_mem _ hj)]

theorem channel_of_delivered (w : World) (urls : List GoString) (cacheFilePath : GoString)
    (arrival : List Nat) (hvalid : ∀ i ∈ arrival, i < urls.length)
    (hdel : ∀ url ∈ urls, ∃ book, (scrapeEach w url cacheFilePath).1 = .ok book) :
    channel w urls cacheFilePath arrival
      = (arrival.map fun i => recordOf w (urls.getD i []) cacheFilePath).map .ok := by
  rw [channel_eq_map w urls cacheFilePath arrival hvalid, List.map_map]
  apply List.map_congr_left
  intro i hi
  have hlt := hvalid i hi
  have hmem : urls.getD i [] ∈ urls := by
    rw [List.getD_eq_getElem?_getD, List.getElem?_eq_getElem hlt]
    exact List.getElem_mem hlt
  obtain ⟨book, hb⟩ := hdel _ hmem
  simp only [Function.comp, recordOf, hb, observed, delivered, Option.getD_some]

theorem withCrash_some (w : World) (urls : List GoString) (cacheFilePath : GoString)
    (ch : List (Except Abort Book)) (cr : Crash) :
    withCrash w urls cacheFilePath ch (some cr)
      = match (urls.get? cr.pipeline).map fun url => (scrapeEach w url cacheFilePath).1 with
        | some (.error (.panic book)) => ch.take cr.received ++ [.error (.panic book)]
        | _ => ch := rfl

theorem withCrash_of_delivered (w : World) (urls : List GoString) (cacheFilePath : GoString)
    (ch : List (Except Abort Book)) (crash : Option Crash)
    (hdel : ∀ url ∈ urls, ∃ book, (scrapeEach w url cacheFilePath).1 = .ok book) :
    withCrash w urls cacheFilePath ch crash = ch := by
  match crash with
  | none => rfl
  | some cr =>
    rw [withCrash_some]
    cases hget : urls.get? cr.pipeline with
    | none => rfl
    | some url =>
      obtain ⟨book, hb⟩ := hdel url (List.get?_mem hget)
      simp only [Option.map_some', hb]

theorem withCrash_take (w : World) (urls : List GoString) (cacheFilePath : GoString)
    (ch : List (Except Abort Book)) (crash : Option Crash) (bs : List Book)
    (hlen : ch.length = bs.length)
    (h : (withCrash w urls cacheFilePath ch crash).take bs.length = bs.map .ok) :
    ch = bs.map .ok := by
  have plain : ch.take bs.length = bs.map .ok → ch = bs.map .ok := by
    intro h1
    rw [← hlen, List.take_length] at h1
    exact h1
  match crash with
  | none => exact plain h
  | some cr =>
    rw [withCrash_some] at h
    split at h
    · rename_i book _
      rcases Nat.lt_or_ge cr.received bs.length with hlt | hge
      · exfalso
        have hk : (ch.take cr.received).length = cr.received := by
          rw [List.length_take]
          omega
        have e := congrArg (fun l => l[cr.received]?) h
        simp only [List.getElem?_take, hlt, if_true, List.getElem?_map] at e
        rw [List.getElem?_append_right (by omega), hk, Nat.sub_self,
          List.getElem?_eq_getElem hlt] at e
        simp at e
      · have e1 : ch.take cr.received = ch := List.take_of_length_le (by omega)
        rw [e1, List.take_append_of_le_length (by omega)] at h
        exact plain h
    · exact plain h

theorem drain_all_ok (pending : List GoString) (bs acc : List Book)
    (hlen : bs.length = pending.length) (hok : ∀ b ∈ bs, b.Err = none) :
    drain pending (bs.map .ok) acc = .returned (some (acc ++ bs)) none := by
  induction pending generalizing bs acc with
  | nil =>
    have : bs = [] := List.length_eq_zero.mp hlen
    subst this
    simp [drain]
  | cons u us ih =>
    match bs, hlen with
    | b :: bs1, hlen =>
      have hb : b.Err = none := hok b (List.mem_cons_self _ _)
      simp only [List.map_cons, drain, hb]
      rw [ih bs1 (acc ++ [b]) (by simpa using hlen)
        (fun x hx => hok x (List.mem_cons_of_mem _ hx))]
      simp

theorem drain_some_err (pending : List GoString) (bs acc : List Book)
    (hlen : bs.length = pending.length) (herr : ∃ b ∈ bs, ∃ err, b.Err = some err) :
    ∃ err, drain pending (bs.map .ok) acc = .returned none (some err) := by
  induction pending generalizing bs acc with
  | nil =>
    have : bs = [] := List.length_eq_zero.mp hlen
    subst this
    obtain ⟨b, hb, _⟩ := herr
    cases hb
  | cons u us ih =>
    match bs, hlen, herr with
    | b :: bs1, hlen, herr =>
      simp only [List.map_cons, drain]
      cases hbe : b.Err with
      | some e => exact ⟨e, rfl⟩
      | none =>
        simp only
        apply ih bs1 (acc ++ [b]) (by simpa using hlen)
        obtain ⟨x, hx, e, he⟩ := herr
        rcases List.mem_cons.mp hx with h | h
        · rw [h, hbe] at he
          cases he
        · exact ⟨x, h, e, he⟩

theorem drain_returned_books (pending : List GoString) (ch : List (Except Abort Book))
    (acc books : List Book) (h : drain pending ch acc = .returned (some books) none) :
    ∃ bs, bs.length = pending.length ∧ ch.take pending.length = bs.map .ok
      ∧ books = acc ++ bs ∧ ∀ b ∈ bs, b.Err = none := by
  induction pending generalizing ch acc with
  | nil =>
    simp only [drain, ScrapeResult.returned.injEq, Option.some.injEq, and_true] at h
    exact ⟨[], rfl, by simp, by simp [h], by simp⟩
  | cons u us ih =>
    match ch, h with
    | [], h => simp [drain] at h
    | .error a :: _, h => simp [drain] at h
    | .ok b :: ch1, h =>
      simp only [drain] at h
      cases hbe : b.Err with
      | some e =>
        rw [hbe] at h
        simp at h
      | none =>
        rw [hbe] at h
        obtain ⟨bs, h1, h2, h3, h4⟩ := ih ch1 (acc ++ [b]) h
        refine ⟨b :: bs, by simp [h1], by simp [h2], by simp [h3], ?_⟩
        intro x hx
        rcases List.mem_cons.mp hx with e | e
        · rw [e]
          exact hbe
        · exact h4 x e

theorem perm_range_valid (n : Nat) (arrival : List Nat) (hperm : arrival.Perm (List.range n)) :
    (∀ i ∈ arrival, i < n) ∧ arrival.length = n ∧ ∀ i, i < n → i ∈ arrival := by
  refine ⟨?_, ?_, ?_⟩
  · intro i hi
    exact List.mem_range.mp (hperm.mem_iff.mp hi)
  · rw [hperm.length_eq, List.length_range]
  · intro i hi
    exact hperm.mem_iff.mpr (List.mem_range.mpr hi)

/-- C2 (as stated, refuted): with a malformed address and a domestic page
without price text, the pipeline of the page calls `log.Fatal` and ends the
process although a record carries an `Err`; with the page alone no record
carries an `Err` and yet no list is returned.  A panic does the same when its
crash comes before `scrape` returns. -/
theorem C2_process_ends_counterexample :
    ([1, 0].Perm (List.range [urlNoMarker, urlA].length)
      ∧ (scrapeEach (worldOf domesticBarePage) urlNoMarker cacheDir).1
          = .ok { Err := some (.wrongBookId "abc".toList) }
      ∧ scrape (worldOf domesticBarePage) [urlNoMarker, urlA] cacheDir [1, 0] none
          = .aborted (.fatal .priceMismatch))
    ∧ (delivered (scrapeEach (worldOf domesticBarePage) urlA cacheDir).1 = none
      ∧ scrape (worldOf domesticBarePage) [urlA] cacheDir [0] none
          = .aborted (.fatal .priceMismatch))
    ∧ (delivered (scrapeEach (worldOf shortIdentifierPage) urlA cacheDir).1 = some {}
      ∧ scrape (worldOf shortIdentifierPage) [urlA] cacheDir [0] (some ⟨0, 0⟩)
          = .aborted (.panic {})) := by
  refine ⟨⟨by decide, rfl, rfl⟩, ⟨rfl, rfl⟩, ⟨rfl, rfl⟩⟩

/-- The run in which a pipeline panics, its deferred call sends the record and
`scrape` returns it before the process dies. -/
theorem panic_record_is_received :
    (scrapeEach (worldOf shortIdentifierPage) urlA cacheDir).1 = .error (.panic {})
      ∧ scrape (worldOf shortIdentifierPage) [urlA] cacheDir [0] none
          = .returned (some [{}]) none := by
  constructor <;> rfl

/-- C2 (amended): for every run of the pipelines of `scrape` in which every
pipeline returns and so delivers its record (none ends the process through
`log.Fatal` or a panic): if some record carries an `Err`, `scrape` returns a
nil list with a non-nil error; if none does, it returns as many records as there
are addresses, with a nil error. -/
theorem C2_all_or_nothing (w : World) (urls : List GoString) (cacheFilePath : GoString)
    (arrival : List Nat) (crash : Option Crash)
    (hperm : arrival.Perm (List.range urls.length))
    (hdel : ∀ url ∈ urls, ∃ book, (scrapeEach w url cacheFilePath).1 = .ok book) :
    ((∃ url ∈ urls, ∃ book err,
        (scrapeEach w url cacheFilePath).1 = .ok book ∧ book.Err = some err) →
      ∃ err, scrape w urls cacheFilePath arrival crash = .returned none (some err))
    ∧ ((∀ url ∈ urls, ∃ book,
        (scrapeEach w url cacheFilePath).1 = .ok book ∧ book.Err = none) →
      ∃ books, scrape w urls cacheFilePath arrival crash = .returned (some books) none
        ∧ books.length = urls.length) := by
  obtain ⟨hvalid, hlen, hall⟩ := perm_range_valid _ _ hperm
  have hch := channel_of_delivered w urls cacheFilePath arrival hvalid hdel
  unfold scrape
  rw [withCrash_of_delivered w urls cacheFilePath _ crash hdel, hch]
  constructor
  · intro ⟨url, hurl, book, err, hb, he⟩
    apply drain_some_err _ _ _ (by simp [hlen])
    obtain ⟨i, hi, hget⟩ := List.getElem_of_mem hurl
    refine ⟨recordOf w url cacheFilePath, ?_, err, ?_⟩
    · rw [List.mem_map]
      refine ⟨i, hall i hi, ?_⟩
      rw [List.getD_eq_getElem?_getD, List.getElem?_eq_getElem hi, Option.getD_some, hget]
    · simp only [recordOf, hb]
      exact he
  · intro hok
    refine ⟨_, drain_all_ok _ _ _ (by simp [hlen]) ?_, by simp [hlen]⟩
    intro b hb
    rw [List.mem_map] at hb
    obtain ⟨i, hi, rfl⟩ := hb
    have hlt := hvalid i hi
    have hmem : urls.getD i [] ∈ urls := by
      rw [List.getD_eq_getElem?_getD, List.getElem?_eq_getElem hlt]
      exact List.getElem_mem hlt
    obtain ⟨book, hb1, hb2⟩ := hok _ hmem
    simp only [recordOf, hb1]
    exact hb2

/-- C2 (amended) at a batch with one malformed address and at a batch of two
well-formed addresses, each with a completion order that differs from the input order. -/
theorem C2_all_or_nothing_witness :
    (∃ err, scrape echoWorld [urlA, urlNoMarker, urlB] cacheDir [2, 0, 1] none
        = .returned none (some err))
    ∧ (∃ books, scrape echoWorld [urlA, urlB] cacheDir [1, 0] none
          = .returned (some books) none
        ∧ books.length = [urlA, urlB].length) :=
  ⟨(C2_all_or_nothing echoWorld [urlA, urlNoMarker, urlB] cacheDir [2, 0, 1] none (by decide)
      (by
        intro url h
        simp only [List.mem_cons, List.mem_singleton, List.not_mem_nil, or_false] at h
        rcases h with rfl | rfl | rfl <;> exact ⟨_, rfl⟩)).1
      ⟨urlNoMarker, by simp, _, _, rfl, rfl⟩,
    (C2_all_or_nothing echoWorld [urlA, urlB] cacheDir [1, 0] none (by decide)
      (by
        intro url h
        simp only [List.mem_cons, List.mem_singleton, List.not_mem_nil, or_false] at h
        rcases h with rfl | rfl <;> exact ⟨_, rfl⟩)).2
      (by
        intro url h
        simp only [List.mem_cons, List.mem_singleton, List.not_mem_nil, or_false] at h
        rcases h with rfl | rfl <;> exact ⟨_, rfl, rfl⟩)⟩

/-- C1 (as stated, refuted): with two addresses whose pipelines complete in the
order second, first, `scrape` succeeds and its first record is the one of the
second address, not the one extracted from the first address. -/
theorem C1_input_order_counterexample :
    [1, 0].Perm (List.range [urlA, urlB].length)
      ∧ scrape echoWorld [urlA, urlB] cacheDir [1, 0] none
          = .returned (some [recordB, recordA]) none
      ∧ (scrapeEach echoWorld urlA cacheDir).1 = .ok recordA
      ∧ (scrapeEach echoWorld urlB cacheDir).1 = .ok recordB
      ∧ recordB ≠ recordA := by
  refine ⟨by decide, rfl, rfl, rfl, by decide⟩

/-- C1 (amended): when `scrape` succeeds in a run of its pipelines with the
completion order `arrival`, it returns as many records as there are addresses,
and the record at position `k` is the one delivered for the address whose
pipeline was the `k`-th to complete; when the pipelines complete in input order
this is the record of the `k`-th address. -/
theorem C1_records_in_arrival_order (w : World) (urls : List GoString)
    (cacheFilePath : GoString) (arrival : List Nat) (crash : Option Crash)
    (books : List Book) (hperm : arrival.Perm (List.range urls.length))
    (h : scrape w urls cacheFilePath arrival crash = .returned (some books) none) :
    books.length = urls.length
      ∧ (∀ k, k < urls.length →
          delivered (scrapeEach w (urls.getD (arrival.getD k 0) []) cacheFilePath).1
            = some (books.getD k {}))
      ∧ (arrival = List.range urls.length → ∀ k, k < urls.length →
          delivered (scrapeEach w (urls.getD k []) cacheFilePath).1
            = some (books.getD k {})) := by
  obtain ⟨hvalid, hlen, _⟩ := perm_range_valid _ _ hperm
  unfold scrape at h
  obtain ⟨bs, h1, h2, h3, _⟩ := drain_returned_books _ _ _ _ h
  rw [List.nil_append] at h3
  subst h3
  have hchlen : (channel w urls cacheFilePath arrival).length = books.length := by
    rw [channel_eq_map w urls cacheFilePath arrival hvalid, List.length_map, hlen, h1]
  rw [← h1] at h2
  have h4 := withCrash_take w urls cacheFilePath _ crash books hchlen h2
  rw [channel_eq_map w urls cacheFilePath arrival hvalid] at h4
  have main : ∀ k, k < urls.length →
      delivered (scrapeEach w (urls.getD (arrival.getD k 0) []) cacheFilePath).1
        = some (books.getD k {}) := by
    intro k hk
    have e := congrArg (fun l => l[k]?) h4
    simp only [List.getElem?_map] at e
    rw [List.getElem?_eq_getElem (by omega), List.getElem?_eq_getElem (by omega)] at e
    simp only [Option.map_some', Option.some.injEq] at e
    have ea : arrival.getD k 0 = arrival[k] := by
      rw [List.getD_eq_getElem?_getD, List.getElem?_eq_getElem (by omega : k < arrival.length),
        Option.getD_some]
    have eb : books.getD k {} = books[k] := by
      rw [List.getD_eq_getElem?_getD, List.getElem?_eq_getElem (by omega : k < books.length),
        Option.getD_some]
    rw [ea, eb]
    exact observed_ok _ _ e
  refine ⟨h1, main, ?_⟩
  intro e k hk
  have hm := main k hk
  have hr : arrival.getD k 0 = k := by
    rw [e, List.getD_eq_getElem?_getD, List.getElem?_range hk, Option.getD_some]
  rw [hr] at hm
  exact hm

/-- C1 (amended) at two addresses whose pipelines complete second, first, and
at the same addresses with the pipelines completing in input order. -/
theorem C1_records_in_arrival_order_witness :
    ([recordB, recordA].length = [urlA, urlB].length
      ∧ ∀ k, k < [urlA, urlB].length →
          delivered (scrapeEach echoWorld
              ([urlA, urlB].getD (([1, 0] : List Nat).getD k 0) []) cacheDir).1
            = some ([recordB, recordA].getD k {}))
    ∧ ∀ k, k < [urlA, urlB].length →
        delivered (scrapeEach echoWorld ([urlA, urlB].getD k []) cacheDir).1
          = some ([recordA, recordB].getD k {}) :=
  ⟨⟨(C1_records_in_arrival_order echoWorld [urlA, urlB] cacheDir [1, 0] none
        [recordB, recordA] (by decide) rfl).1,
      (C1_records_in_arrival_order echoWorld [urlA, urlB] cacheDir [1, 0] none
        [recordB, recordA] (by decide) rfl).2.1⟩,
    (C1_records_in_arrival_order echoWorld [urlA, urlB] cacheDir [0, 1] none
      [recordA, recordB] (by decide) rfl).2.2 rfl⟩

/-! ### Price boxes -/

theorem priceboxStep_later (doc : Document) (idx : Nat) (hidx : idx ≠ 0) (p : Path)
    (book : Book) (price : Int) (hp : candidatePrice doc p = .ok price) :
    priceboxStep doc idx [p] book
      = .ok (if price < book.Price then { book with Price := price } else book) := by
  unfold candidatePrice at hp
  unfold priceboxStep
  simp only [hp, hidx, false_or, if_false]

theorem priceboxStep_first (doc : Document) (p : Path) (book : Book) (price : Int)
    (hp : candidatePrice doc p = .ok price) :
    priceboxStep doc 0 [p] book
      = .ok { book with Price := price, Publisher := boxPublisher doc p } := by
  unfold candidatePrice at hp
  unfold priceboxStep boxPublisher
  simp only [hp, true_or, if_true]

theorem each_later_boxes (doc : Document) (ps : Selection) (idx : Nat) (hidx : idx ≠ 0)
    (book : Book) (hall : ∀ p ∈ ps, ∃ price, candidatePrice doc p = .ok price) :
    ∃ b, Selection.Each (priceboxStep doc) ps idx book = .ok b
      ∧ b = { book with Price := b.Price }
      ∧ b.Price ≤ book.Price
      ∧ (∀ p ∈ ps, ∀ price, candidatePrice doc p = .ok price → b.Price ≤ price)
      ∧ (b.Price = book.Price ∨ ∃ p ∈ ps, candidatePrice doc p = .ok b.Price) := by
  induction ps generalizing idx book with
  | nil =>
    exact ⟨book, rfl, rfl, le_refl _, by simp, Or.inl rfl⟩
  | cons p ps ih =>
    obtain ⟨price, hp⟩ := hall p (List.mem_cons_self _ _)
    have hstep := priceboxStep_later doc idx hidx p book price hp
    obtain ⟨b, h1, h2, h3, h4, h5⟩ := ih (idx + 1) (Nat.succ_ne_zero idx)
      (if price < book.Price then { book with Price := price } else book)
      (fun q hq => hall q (List.mem_cons_of_mem _ hq))
    refine ⟨b, ?_, ?_, ?_, ?_, ?_⟩
    · simp only [Selection.Each, hstep]
      exact h1
    · rw [h2]
      split <;> rfl
    · refine le_trans h3 ?_
      split
      · rename_i hlt
        exact le_of_lt hlt
      · exact le_refl _
    · intro q hq pq hpq
      rcases List.mem_cons.mp hq with e | e
      · rw [e, hp] at hpq
        cases hpq
        refine le_trans h3 ?_
        split
        · exact le_refl _
        · rename_i hge
          exact not_lt.mp hge
      · exact h4 q e pq hpq
    · rcases h5 with e | ⟨q, hq, hpq⟩
      · by_cases hlt : price < book.Price
        · rw [if_pos hlt] at e
          right
          refine ⟨p, List.mem_cons_self _ _, ?_⟩
          rw [hp, e]
        · rw [if_neg hlt] at e
          exact Or.inl e
      · exact Or.inr ⟨q, List.mem_cons_of_mem _ hq, hpq⟩

/-- C4: on a document whose price boxes are `box :: boxes` and each of whose
price boxes has a candidate price that parses, `parseNonJapaneseBook` returns a
record whose `Price` is the minimum of the candidate prices (it is one of them
and is at most each of them) and whose `Publisher` is the one extracted from the
first price box; the other fields are those of the record passed in. -/
theorem C4_minimum_price_first_publisher (doc : Document) (book : Book) (box : Path)
    (boxes : Selection)
    (hboxes : Selection.Find doc Document.Selection selPricebox = box :: boxes)
    (hall : ∀ p ∈ box :: boxes, ∃ price, candidatePrice doc p = .ok price) :
    ∃ b, parseNonJapaneseBook doc book = .ok b
      ∧ (∃ p ∈ box :: boxes, candidatePrice doc p = .ok b.Price)
      ∧ (∀ p ∈ box :: boxes, ∀ price, candidatePrice doc p = .ok price → b.Price ≤ price)
      ∧ b.Publisher = boxPublisher doc box
      ∧ b = { book with Price := b.Price, Publisher := b.Publisher } := by
  obtain ⟨price, hp⟩ := hall box (List.mem_cons_self _ _)
  have hstep := priceboxStep_first doc box book price hp
  obtain ⟨b, h1, h2, h3, h4, h5⟩ := each_later_boxes doc boxes 1 (by decide)
    { book with Price := price, Publisher := boxPublisher doc box }
    (fun q hq => hall q (List.mem_cons_of_mem _ hq))
  refine ⟨b, ?_, ?_, ?_, ?_, ?_⟩
  · unfold parseNonJapaneseBook
    rw [hboxes]
    simp only [Selection.Each, hstep]
    exact h1
  · rcases h5 with e | ⟨q, hq, hpq⟩
    · exact ⟨box, List.mem_cons_self _ _, by rw [hp, e]⟩
    · exact ⟨q, List.mem_cons_of_mem _ hq, hpq⟩
  · intro q hq pq hpq
    rcases List.mem_cons.mp hq with e | e
    · rw [e, hp] at hpq
      cases hpq
      exact h3
    · exact h4 q e pq hpq
  · rw [h2]
  · rw [h2]

/-- C4 at a page with three price boxes. -/
theorem C4_minimum_price_first_publisher_witness :
    ∃ b, parseNonJapaneseBook threeBoxPage {} = .ok b
      ∧ (∃ p ∈ [[0, 1, 0], [0, 1, 1], [0, 1, 2]], candidatePrice threeBoxPage p = .ok b.Price)
      ∧ (∀ p ∈ [[0, 1, 0], [0, 1, 1], [0, 1, 2]], ∀ price,
          candidatePrice threeBoxPage p = .ok price → b.Price ≤ price)
      ∧ b.Publisher = boxPublisher threeBoxPage [0, 1, 0]
      ∧ b = { ({} : Book) with Price := b.Price, Publisher := b.Publisher } :=
  C4_minimum_price_first_publisher threeBoxPage {} [0, 1, 0] [[0, 1, 1], [0, 1, 2]] rfl
    (by
      intro p h
      simp only [List.mem_cons, List.mem_singleton, List.not_mem_nil, or_false] at h
      rcases h with rfl | rfl | rfl <;> exact ⟨_, rfl⟩)

theorem threeBoxPage_record :
    parseNonJapaneseBook threeBoxPage {} = .ok { Price := 1200, Publisher := "First".toList } :=
  rfl

/-! ### The field extractor -/

theorem parseHTML_of_document (w : World) (html : RawHtml) (doc : Document) (book : Book)
    (hdoc : w.newDocument html = .ok doc) :
    parseHTML w html book
      = match parseByLocale doc (infoboxItems doc)
            { book with Title := titleOf doc, Author := authorOf doc } with
        | .error a => .error a
        | .ok b =>
          match identifierContent doc with
          | none => .ok (b, some .cannotParseIsbn)
          | some isbnRaw =>
            match sliceFrom isbnRaw 5 with
            | none => .error (.panic b)
            | some isbn => .ok ({ b with Isbn := isbn }, none) := by
  unfold parseHTML
  rw [hdoc]
  rfl

theorem utf8_append (a b : GoString) : utf8 (a ++ b) = utf8 a ++ utf8 b := by
  unfold utf8
  exact List.flatMap_append _ _ _

theorem utf8_length_of_ascii (l : GoString) (h : ∀ x ∈ l, x.toNat < 128) :
    (utf8 l).length = l.length := by
  induction l with
  | nil => rfl
  | cons c cs ih =>
    have hc : c.toNat < 128 := h c (List.mem_cons_self _ _)
    have e : utf8 (c :: cs) = utf8Rune c ++ utf8 cs := rfl
    have e1 : utf8Rune c = [c.toNat] := by
      unfold utf8Rune
      simp only [hc, if_true]
    rw [e, e1, List.length_append, ih fun x hx => h x (List.mem_cons_of_mem _ hx)]
    simp [Nat.add_comm]

theorem utf8_drop_of_ascii (c : GoString) (n : Nat) (hlen : n ≤ (utf8 c).length)
    (h : ∀ x ∈ c.take n, x.toNat < 128) : (utf8 c).drop n = utf8 (c.drop n) := by
  have hsplit : utf8 c = utf8 (c.take n) ++ utf8 (c.drop n) := by
    rw [← utf8_append, List.take_append_drop]
  have h1 := utf8_length_of_ascii (c.take n) h
  have hn : (c.take n).length = n := by
    rcases Nat.lt_or_ge c.length n with hlt | hge
    · exfalso
      have e : c.take n = c := List.take_of_length_le (le_of_lt hlt)
      rw [e] at h1
      omega
    · exact List.length_take_of_le hge
  rw [hsplit, List.drop_append_eq_append_drop, List.drop_of_length_le (by omega)]
  simp [h1, hn]

/-- C5 (as stated, refuted): with a `content` of fewer than five bytes
`parseHTML` panics; with a fullwidth scheme the five bytes removed are not five
characters; on a domestic page without price text the process ends before the
identifier is read, whether or not the attribute is there. -/
theorem C5_isbn_counterexample :
    (identifierContent shortIdentifierPage = some "978".toList
      ∧ parseHTML (worldOf shortIdentifierPage) [] {} = .error (.panic {}))
    ∧ (identifierContent fullwidthIdentifierPage = some "ＩＳＢＮ：978".toList
      ∧ parseHTML (worldOf fullwidthIdentifierPage) [] {}
          = .ok ({ Isbn := (utf8 "ＩＳＢＮ：978".toList).drop 5 }, none)
      ∧ (utf8 "ＩＳＢＮ：978".toList).drop 5 ≠ utf8 ("ＩＳＢＮ：978".toList.drop 5))
    ∧ (identifierContent domesticIdentifierPage = some "ISBN:9784065170069".toList
      ∧ parseHTML (worldOf domesticIdentifierPage) [] {} = .error (.fatal .priceMismatch))
    ∧ (identifierContent domesticBarePage = none
      ∧ parseHTML (worldOf domesticBarePage) [] {} = .error (.fatal .priceMismatch)) := by
  refine ⟨⟨rfl, rfl⟩, ⟨rfl, rfl, by decide⟩, ⟨rfl, rfl⟩, ⟨rfl, rfl⟩⟩

/-- C5 (amended): on a parsed document on which the price extraction of the
locale branch returns, `parseHTML` sets `Isbn` to the bytes of the `content`
attribute `c` after the first five, when `c` has at least five bytes; these are
the characters of `c` after the first five when the first five are ASCII, as in
`ISBN:`; and when the attribute is absent `parseHTML` returns the error
`cannot parse isbn`. -/
theorem C5_isbn_strips_five_bytes (w : World) (html : RawHtml) (doc : Document)
    (book b : Book) (hdoc : w.newDocument html = .ok doc)
    (hloc : parseByLocale doc (infoboxItems doc)
      { book with Title := titleOf doc, Author := authorOf doc } = .ok b) :
    (∀ c, identifierContent doc = some c → 5 ≤ (utf8 c).length →
      parseHTML w html book = .ok ({ b with Isbn := (utf8 c).drop 5 }, none)
        ∧ ((∀ x ∈ c.take 5, x.toNat < 128) → (utf8 c).drop 5 = utf8 (c.drop 5)))
    ∧ (identifierContent doc = none →
      parseHTML w html book = .ok (b, some .cannotParseIsbn)) := by
  rw [parseHTML_of_document w html doc book hdoc, hloc]
  constructor
  · intro c hc hlen
    refine ⟨?_, utf8_drop_of_ascii c 5 hlen⟩
    simp only [hc, sliceFrom, hlen, if_true]
  · intro hc
    simp only [hc]

theorem C5_isbn_strips_five_bytes_witness :
    (parseHTML (worldOf noInfoboxPage) [] {}
        = .ok ({ ({} : Book) with Isbn := (utf8 "ISBN:9784065170069".toList).drop 5 }, none)
      ∧ (utf8 "ISBN:9784065170069".toList).drop 5 = utf8 ("ISBN:9784065170069".toList.drop 5))
    ∧ parseHTML (worldOf noIdentifierPage) [] {}
        = .ok ({ Price := 3900, Publisher := "P".toList }, some .cannotParseIsbn) :=
  ⟨⟨((C5_isbn_strips_five_bytes (worldOf noInfoboxPage) [] noInfoboxPage {} {} rfl rfl).1
        "ISBN:9784065170069".toList rfl (by decide)).1,
      ((C5_isbn_strips_five_bytes (worldOf noInfoboxPage) [] noInfoboxPage {} {} rfl rfl).1
        "ISBN:9784065170069".toList rfl (by decide)).2 (by decide)⟩,
    (C5_isbn_strips_five_bytes (worldOf noIdentifierPage) [] noIdentifierPage {}
      { Price := 3900, Publisher := "P".toList } rfl rfl).2 rfl⟩

/-- C8 (as stated, refuted): an imported page without info box makes `parseHTML`
return without error, with an empty author, and `scrapeEach` delivers the record
with `Err` unset; a domestic page without info box and without identifier
metadata ends the whole process in `parsePrice`. -/
theorem C8_missing_infobox_counterexample :
    (Selection.Find noInfoboxPage Document.Selection selInfobox = []
      ∧ parseHTML (worldOf noInfoboxPage) [] {}
          = .ok ({ Isbn := utf8 "9784065170069".toList }, none)
      ∧ (scrapeEach (worldOf noInfoboxPage) urlA cacheDir).1
          = .ok { Isbn := utf8 "9784065170069".toList })
    ∧ (Selection.Find domesticBarePage Document.Selection selInfobox = []
      ∧ Selection.Find domesticBarePage Document.Selection selIdentifier = []
      ∧ parseHTML (worldOf domesticBarePage) [] {} = .error (.fatal .priceMismatch)
      ∧ (scrapeEach (worldOf domesticBarePage) urlA cacheDir).1
          = .error (.fatal .priceMismatch)) := by
  refine ⟨⟨rfl, rfl, rfl⟩, ⟨rfl, rfl, rfl, rfl⟩⟩

/-- C8 (amended): for a parsed document without identifier metadata element on
which the price extraction of the locale branch returns, `parseHTML` returns the
error `cannot parse isbn` and `scrapeEach` delivers the record with that error
as its `Err`. -/
theorem C8_missing_identifier_is_item_error (w : World) (url cacheFilePath : GoString)
    (html : RawHtml) (doc : Document) (b : Book)
    (h1 : strings.HasPrefix url origin = true)
    (h2 : strings.HasPrefix (finalSegment url) "dsg".toList = true)
    (hload : (loadHTML w (finalSegment url) url cacheFilePath).1 = .ok html)
    (hdoc : w.newDocument html = .ok doc)
    (hloc : parseByLocale doc (infoboxItems doc)
      { Title := titleOf doc, Author := authorOf doc } = .ok b)
    (hid : Selection.Find doc Document.Selection selIdentifier = []) :
    parseHTML w html {} = .ok (b, some .cannotParseIsbn)
      ∧ (scrapeEach w url cacheFilePath).1 = .ok { b with Err := some .cannotParseIsbn } := by
  have hc : identifierContent doc = none := by
    unfold identifierContent
    rw [hid]
    rfl
  have hp : parseHTML w html {} = .ok (b, some .cannotParseIsbn) := by
    rw [parseHTML_of_document w html doc {} hdoc, hloc]
    simp only [hc]
  refine ⟨hp, ?_⟩
  rw [scrapeEach_pass w url cacheFilePath h1 h2]
  simp only [hload, hp]

theorem C8_missing_identifier_is_item_error_witness :
    parseHTML (worldOf noIdentifierPage) [] {}
        = .ok ({ Price := 3900, Publisher := "P".toList }, some .cannotParseIsbn)
      ∧ (scrapeEach (worldOf noIdentifierPage) urlA cacheDir).1
        = .ok { Price := 3900, Publisher := "P".toList, Err := some .cannotParseIsbn } :=
  C8_missing_identifier_is_item_error (worldOf noIdentifierPage) urlA cacheDir []
    noIdentifierPage { Price := 3900, Publisher := "P".toList }
    (by decide) (by decide) rfl rfl rfl rfl

/-! ### The sign of the price -/

/-- C7 (as stated, refuted): a page whose price text carries a minus sign makes
`parsePrice` return -1, and `parseHTML` completes with the negative `Price`. -/
theorem C7_negative_price_counterexample :
    parsePrice negativePricePage [[0, 1, 0, 0, 0]] = .ok (-1)
      ∧ parseHTML (worldOf negativePricePage) [] {}
          = .ok ({ Price := -1, Publisher := "P".toList, Isbn := [49] }, none) := by
  constructor <;> rfl

theorem parsePrice_nonneg (doc : Document) (s : Selection) (p : Int)
    (h : parsePrice doc s = .ok p) (hg : unsignedPriceText doc s) : 0 ≤ p := by
  unfold parsePrice parsePriceText at h
  split at h
  · rename_i whole g hm
    have hs := hg whole g hm
    simp only at h
    split at h
    · cases h
    · rename_i price ha
      cases h
      exact atoi_nonneg _ _ ha hs
  · cases h

theorem parseJapaneseBook_nonneg (doc : Document) (s : Selection) (book b : Book)
    (h : parseJapaneseBook doc s book = .ok b)
    (hg : unsignedPriceText doc (domesticPriceItem doc s)) : 0 ≤ b.Price := by
  unfold parseJapaneseBook at h
  simp only at h
  split at h
  · cases h
  · rename_i price hp
    cases h
    exact parsePrice_nonneg doc _ price hp hg

theorem priceboxStep_nonneg (doc : Document) (idx : Nat) (p : Path) (book b : Book)
    (h : priceboxStep doc idx [p] book = .ok b) (hbook : 0 ≤ book.Price)
    (hg : unsignedPriceText doc (Selection.First (Selection.Find doc [p] selLi))) :
    0 ≤ b.Price := by
  unfold priceboxStep at h
  simp only at h
  split at h
  · cases h
  · rename_i price hp
    have hprice := parsePrice_nonneg doc _ price hp hg
    cases h
    split_ifs <;> assumption

theorem each_nonneg (doc : Document) (ps : Selection) (idx : Nat) (book b : Book)
    (h : Selection.Each (priceboxStep doc) ps idx book = .ok b) (hbook : 0 ≤ book.Price)
    (hg : ∀ p ∈ ps, unsignedPriceText doc (Selection.First (Selection.Find doc [p] selLi))) :
    0 ≤ b.Price := by
  induction ps generalizing idx book with
  | nil =>
    simp only [Selection.Each, Except.ok.injEq] at h
    rw [← h]
    exact hbook
  | cons p ps ih =>
    simp only [Selection.Each] at h
    split at h
    · cases h
    · rename_i b1 hstep
      exact ih (idx + 1) b1 h
        (priceboxStep_nonneg doc idx p book b1 hstep hbook (hg p (List.mem_cons_self _ _)))
        (fun q hq => hg q (List.mem_cons_of_mem _ hq))

/-- C7 (amended): on a document none of whose price texts carries a minus sign
(what the pattern captures does not, after removal of the separators, begin
with one), every value `parsePrice` returns is non-negative, so is every `Price`
that `parseJapaneseBook` or `parseNonJapaneseBook` assigns, and when extraction
completes the `Price` of the record is non-negative; the record passed in has a
non-negative `Price`, as `new(Book)` has. -/
theorem C7_price_nonneg_without_minus (doc : Document) :
    (∀ s p, parsePrice doc s = .ok p → unsignedPriceText doc s → 0 ≤ p)
    ∧ (∀ s book b, parseJapaneseBook doc s book = .ok b →
        unsignedPriceText doc (domesticPriceItem doc s) → 0 ≤ b.Price)
    ∧ (∀ book b, parseNonJapaneseBook doc book = .ok b → 0 ≤ book.Price →
        (∀ box ∈ Selection.Find doc Document.Selection selPricebox,
          unsignedPriceText doc (Selection.First (Selection.Find doc [box] selLi))) →
        0 ≤ b.Price)
    ∧ (∀ (w : World) html book b e, w.newDocument html = .ok doc →
        parseHTML w html book = .ok (b, e) → 0 ≤ book.Price →
        unsignedPriceText doc (domesticPriceItem doc (infoboxItems doc)) →
        (∀ box ∈ Selection.Find doc Document.Selection selPricebox,
          unsignedPriceText doc (Selection.First (Selection.Find doc [box] selLi))) →
        0 ≤ b.Price) := by
  have h3 : ∀ book b, parseNonJapaneseBook doc book = .ok b → 0 ≤ book.Price →
      (∀ box ∈ Selection.Find doc Document.Selection selPricebox,
        unsignedPriceText doc (Selection.First (Selection.Find doc [box] selLi))) →
      0 ≤ b.Price := by
    intro book b h hbook hg
    unfold parseNonJapaneseBook at h
    exact each_nonneg doc _ 0 book b h hbook hg
  refine ⟨parsePrice_nonneg doc, parseJapaneseBook_nonneg doc, h3, ?_⟩
  intro w html book b e hdoc h hbook hjp hbox
  rw [parseHTML_of_document w html doc book hdoc] at h
  split at h
  · cases h
  · rename_i b1 hloc
    have hb1 : 0 ≤ b1.Price := by
      unfold parseByLocale at hloc
      split at hloc
      · exact parseJapaneseBook_nonneg doc _ _ b1 hloc hjp
      · exact h3 _ b1 hloc hbook hbox
    split at h
    · simp only [Except.ok.injEq, Prod.mk.injEq] at h
      rw [← h.1]
      exact hb1
    · split at h
      · cases h
      · simp only [Except.ok.injEq, Prod.mk.injEq] at h
        rw [← h.1]
        exact hb1

/-- C7 (amended) at a domestic page with the price text the shop prints, and at
an imported page with three price boxes. -/
theorem C7_price_nonneg_without_minus_witness :
    (parseHTML (worldOf domesticPage) [] {} = .ok (domesticRecord, none)
      ∧ 0 ≤ domesticRecord.Price)
    ∧ (parsePrice plainPricePage [[0, 1, 0]] = .ok 3900 ∧ (0 : Int) ≤ 3900) :=
  ⟨⟨rfl, (C7_price_nonneg_without_minus domesticPage).2.2.2 (worldOf domesticPage) [] {}
      domesticRecord none rfl rfl (by decide)
      (by
        intro whole g hm
        have e : rPrice.FindStringSubmatch
            (Selection.Text domesticPage
              (domesticPriceItem domesticPage (infoboxItems domesticPage)))
            = ["（本体¥3,900）".toList, "3,900".toList] := rfl
        rw [e] at hm
        simp only [List.cons.injEq, and_true] at hm
        rw [← hm.2]
        decide)
      (by
        intro box hb
        have e : Selection.Find domesticPage Document.Selection selPricebox = [] := rfl
        rw [e] at hb
        cases hb)⟩,
    ⟨rfl, (C7_price_nonneg_without_minus plainPricePage).1 [[0, 1, 0]] 3900 rfl (by
      intro whole g hm
      have e : rPrice.FindStringSubmatch (Selection.Text plainPricePage [[0, 1, 0]])
          = ["（本体¥3,900）".toList, "3,900".toList] := rfl
      rw [e] at hm
      simp only [List.cons.injEq, and_true] at hm
      rw [← hm.2]
      decide)⟩⟩

/-! ### The publisher -/

theorem descend_append (n : Node) (p q : Path) :
    n.descend (p ++ q) = (n.descend p).bind fun m => m.descend q := by
  induction p generalizing n with
  | nil => rfl
  | cons i p ih =>
    simp only [List.cons_append, Node.descend]
    cases n.children.get? i with
    | none => rfl
    | some c => exact ih c

theorem foldl_append_new (vals acc : List Path) (h1 : ∀ v ∈ vals, v ∉ acc)
    (h2 : vals.Nodup) :
    vals.foldl (fun acc v => if v ∈ acc then acc else acc ++ [v]) acc = acc ++ vals := by
  induction vals generalizing acc with
  | nil => simp
  | cons v vs ih =>
    have hv : v ∉ acc := h1 v (List.mem_cons_self _ _)
    have hn := List.nodup_cons.mp h2
    simp only [List.foldl_cons, if_neg hv]
    rw [ih (acc ++ [v]) ?_ hn.2]
    · simp
    · intro x hx hmem
      rcases List.mem_append.mp hmem with h | h
      · exact h1 x (List.mem_cons_of_mem _ hx) h
      · rw [List.mem_singleton] at h
        exact hn.1 (h ▸ hx)

theorem elemIndices_ge (cs : List Node) (i j : Nat) (h : j ∈ elemIndices cs i) : i ≤ j := by
  induction cs generalizing i with
  | nil => cases h
  | cons c cs ih =>
    unfold elemIndices at h
    split at h
    · rcases List.mem_cons.mp h with e | e
      · omega
      · have := ih (i + 1) e
        omega
    · have := ih (i + 1) h
      omega

theorem elemIndices_nodup (cs : List Node) (i : Nat) : (elemIndices cs i).Nodup := by
  induction cs generalizing i with
  | nil => exact List.nodup_nil
  | cons c cs ih =>
    unfold elemIndices
    split
    · refine List.nodup_cons.mpr ⟨?_, ih (i + 1)⟩
      intro h
      have := elemIndices_ge cs (i + 1) i h
      omega
    · exact ih (i + 1)

theorem node_child (doc : Document) (p : Path) (n : Node) (i : Nat)
    (h : doc.node p = some n) : doc.node (p ++ [i]) = n.children.get? i := by
  unfold Document.node at h ⊢
  rw [descend_append, h]
  show n.descend [i] = n.children.get? i
  unfold Node.descend
  cases hg : n.children.get? i with
  | none => rfl
  | some c => rfl

theorem text_child_paths (doc : Document) (p : Path) (n : Node) (h : doc.node p = some n)
    (idxs : List Nat) :
    Selection.Text doc (idxs.map fun i => p ++ [i])
      = idxs.flatMap fun i =>
          match n.children.get? i with
          | some c => c.innerText
          | none => [] := by
  induction idxs with
  | nil => rfl
  | cons i rest ih =>
    simp only [List.map_cons, Selection.Text, List.flatMap_cons, node_child doc p n i h, ih]

theorem elemIndices_text (cs pre : List Node) :
    ((elemIndices cs pre.length).flatMap fun i =>
        match (pre ++ cs).get? i with
        | some c => c.innerText
        | none => [])
      = (cs.filter Node.isElem).flatMap Node.innerText := by
  induction cs generalizing pre with
  | nil => rfl
  | cons c cs ih =>
    have ih1 := ih (pre ++ [c])
    rw [List.length_append, List.length_singleton, List.append_assoc, List.singleton_append]
      at ih1
    have hc : (pre ++ c :: cs).get? pre.length = some c := by
      rw [List.get?_eq_getElem?, List.getElem?_append_right (le_refl _), Nat.sub_self]
      simp
    unfold elemIndices
    by_cases he : c.isElem = true
    · rw [if_pos he, List.flatMap_cons, hc, ih1, List.filter_cons_of_pos he, List.flatMap_cons]
    · rw [if_neg he, ih1, List.filter_cons_of_neg he]

theorem children_text (doc : Document) (p : Path) (n : Node) (h : doc.node p = some n) :
    Selection.Text doc (Selection.Children doc [p]) = childElementsText n := by
  have hc : Selection.Children doc [p] = (elemIndices n.children 0).map fun i => p ++ [i] := by
    unfold Selection.Children mapNodes appendWithoutDuplicates
    simp only [List.foldl_cons, List.foldl_nil, h]
    rw [foldl_append_new _ [] (by simp)]
    · rfl
    · refine (elemIndices_nodup n.children 0).map ?_
      intro a b e
      simpa using e
  rw [hc, text_child_paths doc p n h]
  exact elemIndices_text n.children []

theorem trimSpace_head (l : GoString) (c : Char) (h : (strings.TrimSpace l).head? = some c) :
    unicode.IsSpace c = false := by
  have h1 := dropWhile_trimSpace l
  cases ht : strings.TrimSpace l with
  | nil =>
    rw [ht] at h
    cases h
  | cons x xs =>
    rw [ht] at h h1
    simp only [List.head?_cons, Option.some.injEq] at h
    subst h
    by_contra hs
    rw [Bool.not_eq_false] at hs
    rw [List.dropWhile_cons, if_pos hs] at h1
    have hle := (List.dropWhile_suffix unicode.IsSpace (l := xs)).length_le
    rw [h1] at hle
    simp at hle

theorem trimSpace_getLast (l : GoString) (c : Char)
    (h : (strings.TrimSpace l).getLast? = some c) : unicode.IsSpace c = false := by
  unfold strings.TrimSpace at h
  have hne : List.rdropWhile unicode.IsSpace (l.dropWhile unicode.IsSpace) ≠ [] := by
    intro e
    rw [e] at h
    cases h
  have := List.rdropWhile_last_not unicode.IsSpace (l.dropWhile unicode.IsSpace) hne
  rw [List.getLast?_eq_getLast _ hne, Option.some.injEq] at h
  rw [h] at this
  exact Bool.eq_false_iff.mpr this

theorem map_eq_self_of_fixed (f : Char → Char) (l : GoString) (h : ∀ c ∈ l, f c = c) :
    l.map f = l := by
  induction l with
  | nil => rfl
  | cons c cs ih =>
    rw [List.map_cons, h c (List.mem_cons_self _ _),
      ih fun x hx => h x (List.mem_cons_of_mem _ hx)]

theorem width_fixed (c : Char)
    (h : ¬ (0xFF01 ≤ c.toNat ∧ c.toNat ≤ 0xFF5D) ∧ c.toNat ≠ 0x3000) :
    moji.toHS (moji.toHE c) = c := by
  apply char_eq_of_toNat
  rw [toHS_toNat, toHE_toNat]
  split_ifs <;> omega

/-- C10 (as stated, refuted): a publisher printed in fullwidth letters is
returned trimmed but in fullwidth, while `sanitize` of the same text is in
halfwidth. -/
theorem C10_publisher_counterexample :
    parsePublisher fullwidthPublisherPage [[0, 1, 0]] = "ＡＢＣ　出版".toList
      ∧ sanitize (Selection.Text fullwidthPublisherPage
          (Selection.Children fullwidthPublisherPage [[0, 1, 0]])) = "ABC 出版".toList
      ∧ parsePublisher fullwidthPublisherPage [[0, 1, 0]]
        ≠ sanitize (Selection.Text fullwidthPublisherPage
            (Selection.Children fullwidthPublisherPage [[0, 1, 0]])) := by
  refine ⟨rfl, rfl, by decide⟩

/-- C10 (amended): the publisher returned by `parsePublisher` is
`strings.TrimSpace` of the concatenated text of the immediate child elements of
the selection, for one element the text of its child elements without its own
text; it is whitespace-trimmed (trimming it again changes nothing, it neither
starts nor ends with white space) but not width-normalised: it equals `sanitize`
of that text whenever it holds no fullwidth form U+FF01 to U+FF5D and no
ideographic space. -/
theorem C10_publisher_trimmed_only (doc : Document) (s : Selection) :
    parsePublisher doc s
        = strings.TrimSpace (Selection.Text doc (Selection.Children doc s))
      ∧ (∀ p n, doc.node p = some n →
          parsePublisher doc [p] = strings.TrimSpace (childElementsText n))
      ∧ strings.TrimSpace (parsePublisher doc s) = parsePublisher doc s
      ∧ (∀ c, (parsePublisher doc s).head? = some c → unicode.IsSpace c = false)
      ∧ (∀ c, (parsePublisher doc s).getLast? = some c → unicode.IsSpace c = false)
      ∧ ((∀ c ∈ parsePublisher doc s,
            ¬ (0xFF01 ≤ c.toNat ∧ c.toNat ≤ 0xFF5D) ∧ c.toNat ≠ 0x3000) →
          parsePublisher doc s
            = sanitize (Selection.Text doc (Selection.Children doc s))) := by
  refine ⟨rfl, ?_, trimSpace_idem _, trimSpace_head _, trimSpace_getLast _, ?_⟩
  · intro p n h
    unfold parsePublisher
    rw [children_text doc p n h]
  · intro h
    unfold sanitize moji.ConvertZStoHS moji.ConvertZEtoHE
    simp only [List.map_map]
    symm
    apply map_eq_self_of_fixed
    intro c hc
    exact width_fixed c (h c hc)

/-- C10 (amended) at the publisher item of a domestic page, whose own text
`（2019/10発売）` is left out and whose publisher holds no fullwidth form. -/
theorem C10_publisher_trimmed_only_witness :
    parsePublisher domesticPage [[0, 1, 2, 0, 3]] = "講談社".toList
      ∧ parsePublisher domesticPage [[0, 1, 2, 0, 3]]
        = strings.TrimSpace (childElementsText
            (.elem "li".toList [] [textElem "a" " 講談社 ", .text "（2019/10発売）".toList]))
      ∧ parsePublisher domesticPage [[0, 1, 2, 0, 3]]
        = sanitize (Selection.Text domesticPage
            (Selection.Children domesticPage [[0, 1, 2, 0, 3]])) :=
  ⟨rfl,
    (C10_publisher_trimmed_only domesticPage [[0, 1, 2, 0, 3]]).2.1 [0, 1, 2, 0, 3] _ rfl,
    (C10_publisher_trimmed_only domesticPage [[0, 1, 2, 0, 3]]).2.2.2.2.2 (by decide)⟩

end Kinokuniya
